import Mathlib

/-!
# depf: dependent-file closure

A shallow embedding of `depf.go` (package `depf`) and the properties of its
reachability engine.

Modelling conventions

* A Go `string` is its sequence of bytes, a `List Nat`; `==` is equality of the
  sequences and `<` is the bytewise lexicographic order (`stringLess`).
* An `*ast.Ident` is identified by a natural number (its pointer identity); a
  `token.Pos` is a natural number.
* A Go `map[string]struct{}` is the duplicate-free list of its keys, built with
  `mapSet`.  The order in which `range` enumerates a map is unspecified in
  Go; it is supplied by a `MapIter`, an arbitrary rearrangement of the keys.
* The collaborators `os.Stat`, `filepath.Abs`, `filepath.Dir` and
  `packages.Load` are fields of an `Env`; a Go `error` is its message.
* The `for len(queue) > 0` loop is run on fuel (`loopRun`); the fuel
  `iterationBound` handed to it by `findDependentFilesRecursively` is shown
  never to run out (`loopRun_iterationBound`).
-/

namespace DepfGo

/-! ## Data model -/

/-- A Go `string`: a sequence of bytes. -/
abbrev GoString := List Nat

/-- The UTF-8 bytes of a string literal. -/
def utf8 (s : String) : GoString :=
  s.data.flatMap (fun c => (String.utf8EncodeChar c).map UInt8.toNat)

/-- Go `a < b` on strings: bytewise lexicographic comparison. -/
def stringLess : GoString → GoString → Bool
  | _, [] => false
  | [], _ :: _ => true
  | x :: xs, y :: ys => decide (x < y) || (decide (x = y) && stringLess xs ys)

/-- Go `m[k] = struct{}{}` on a `map[string]struct{}` given by its list of keys. -/
def mapSet (m : List GoString) (k : GoString) : List GoString :=
  if k ∈ m then m else k :: m

/-- Model of `token.Position`: only `Filename` is read by the program. -/
structure Position where
  Filename : GoString
  Line : Nat
  Column : Nat
  deriving DecidableEq

/-- Model of `*token.FileSet`: the map from a `token.Pos` to its `Position`. -/
structure FileSet where
  Position : Nat → Position

/-- Model of `types.Object`: only `Pos()` is read by the program. -/
structure Object where
  Pos : Nat
  deriving DecidableEq

/-- Model of `*types.Info`: `ObjectOf` maps an identifier to the object it
denotes, `none` standing for Go's `nil`. -/
structure TypesInfo where
  ObjectOf : Nat → Option Object

/-- Model of `ast.Node` as far as `ast.Inspect` is concerned: an `*ast.Ident`
(a leaf) or any other node with its children in walk order. -/
inductive Node where
  | Ident (id : Nat) : Node
  | Other (children : List Node) : Node

/-- Model of `*ast.File`: `Package` is the position `f.Pos()` returns, `Name` the
package-name identifier, `Decls` the top-level declarations. -/
structure AstFile where
  Package : Nat
  Name : Nat
  Decls : List Node

/-- Model of `*packages.Package`, restricted to the fields the program reads. -/
structure Package where
  Syntax : List AstFile
  Fset : FileSet
  TypesInfo : TypesInfo

/-- Enumeration order of `range` over a map: any rearrangement of the keys. -/
structure MapIter where
  order : List GoString → List GoString
  perm : ∀ keys : List GoString, List.Perm (order keys) keys

/-- Enumeration in the order the keys are stored. -/
def MapIter.stored : MapIter := ⟨fun keys => keys, fun keys => List.Perm.refl keys⟩

/-- Enumeration in reverse of the order the keys are stored. -/
def MapIter.reversed : MapIter := ⟨fun keys => keys.reverse, fun keys => List.reverse_perm keys⟩

/-- The bits of `packages.LoadMode` that `loadPackages` sets. -/
inductive LoadMode where
  | NeedName
  | NeedSyntax
  | NeedDeps
  | NeedTypes
  | NeedTypesInfo
  deriving DecidableEq

/-- Model of `packages.Config`, restricted to the fields `loadPackages` sets. -/
structure Config where
  Mode : List LoadMode
  Dir : GoString

/-- Model of `os.FileInfo`: only `IsDir()` is read by the program. -/
structure FileInfo where
  IsDir : Bool

/-- The collaborators of `Depf` outside the repository. -/
structure Env where
  /-- Library function `os.Stat`. -/
  Stat : GoString → Except String FileInfo
  /-- Library function `filepath.Abs`. -/
  Abs : GoString → Except String GoString
  /-- Library function `filepath.Dir`. -/
  Dir : GoString → GoString
  /-- Library function `packages.Load`. -/
  Load : Config → List GoString → Except String (List Package)

/-! ## Syntax-tree walk -/

mutual
/-- Identifiers that `ast.Inspect` reaches below a node, in visiting order (the
callback always returns `true` on a non-nil node, so nothing is pruned). -/
def Node.idents : Node → List Nat
  | .Ident id => [id]
  | .Other children => Node.identsList children
/-- Identifiers reached below a list of sibling nodes. -/
def Node.identsList : List Node → List Nat
  | [] => []
  | n :: ns => Node.idents n ++ Node.identsList ns
end

/-- Identifiers that `ast.Inspect(astFile, ...)` visits: the name, then the declarations. -/
def AstFile.idents (f : AstFile) : List Nat :=
  f.Name :: Node.identsList f.Decls

/-- The expression `pkg.Fset.Position(f.Pos()).Filename`. -/
def Package.origin (pkg : Package) (f : AstFile) : GoString :=
  (pkg.Fset.Position f.Package).Filename

/-! ## Entry checks and scope loading -/

/-- Go `validateFile`: `none` for a `nil` error. -/
def validateFile (env : Env) (file : GoString) : Option String :=
  if file.length < 3 ∨ file.drop (file.length - 3) ≠ utf8 ".go" then
    some "file must be a .go file"
  else
    match env.Stat file with
    | .error err => some ("could not access file: " ++ err)
    | .ok info =>
      if info.IsDir then some "file must not be a directory" else none

/-- Go `loadPackages`. -/
def loadPackages (env : Env) (file : GoString) (packagePatterns : List GoString) :
    Except String (List Package) :=
  let dir := env.Dir file
  let packagePatterns := if packagePatterns.length = 0 then packagePatterns ++ [dir]
    else packagePatterns
  let loadMode := [LoadMode.NeedName, LoadMode.NeedSyntax, LoadMode.NeedDeps,
    LoadMode.NeedTypes, LoadMode.NeedTypesInfo]
  env.Load ⟨loadMode, dir⟩ packagePatterns

/-! ## File index -/

/-- The inner loop of `getFile` over `pkg.Syntax`. -/
def getFileIn (file : GoString) (pkg : Package) : List AstFile → Option AstFile
  | [] => none
  | f :: fs => if pkg.origin f = file then some f else getFileIn file pkg fs

/-- Go `getFile`: the `*ast.File` of `file` in `pkgs`, `none` for `nil`. -/
def getFile (file : GoString) : List Package → Option AstFile
  | [] => none
  | pkg :: pkgs =>
    match getFileIn file pkg pkg.Syntax with
    | some f => some f
    | none => getFile file pkgs

/-! ## File-local dependency extractor -/

/-- The body of the `case *ast.Ident` branch: every package that resolves the
identifier records the file of the definition in the map. -/
def recordIdent (pkgs : List Package) (dependentFiles : List GoString) (n : Nat) :
    List GoString :=
  pkgs.foldl
    (fun m pkg =>
      match pkg.TypesInfo.ObjectOf n with
      | some obj => mapSet m (pkg.Fset.Position obj.Pos).Filename
      | none => m)
    dependentFiles

/-- The map `dependentFiles` of `findDependentFiles` once `ast.Inspect` has returned. -/
def recordedFiles (astFile : AstFile) (pkgs : List Package) : List GoString :=
  astFile.idents.foldl (recordIdent pkgs) []

/-- Go `findDependentFiles`. -/
def findDependentFiles (it : MapIter) (astFile : AstFile) (pkgs : List Package) :
    List GoString :=
  (it.order (recordedFiles astFile pkgs)).filter (fun f => (getFile f pkgs).isSome)

/-! ## Transitive closure driver -/

/-- State of the queue loop of `findDependentFilesRecursively`. -/
structure LoopState where
  dependentFiles : List GoString
  queue : List GoString

/-- One iteration of the queue loop, the head `file` of the queue already taken off. -/
def loopBody (it : MapIter) (pkgs : List Package) (file : GoString) (queue : List GoString)
    (dependentFiles : List GoString) : LoopState :=
  if file ∈ dependentFiles then
    ⟨dependentFiles, queue⟩
  else
    match getFile file pkgs with
    | none => ⟨mapSet dependentFiles file, queue⟩
    | some astFile =>
      ⟨mapSet dependentFiles file,
        queue ++ (findDependentFiles it astFile pkgs).filter
          (fun f => decide (f ∉ mapSet dependentFiles file))⟩

/-- The queue loop run for at most `fuel` iterations: `some (m, k)` when the loop
condition `len(queue) > 0` failed after `k` iterations with map `m`, `none` when the
fuel ran out first. -/
def loopRun (it : MapIter) (pkgs : List Package) : Nat → LoopState → Option (List GoString × Nat)
  | 0, st =>
    match st.queue with
    | [] => some (st.dependentFiles, 0)
    | _ :: _ => none
  | fuel + 1, st =>
    match st.queue with
    | [] => some (st.dependentFiles, 0)
    | file :: queue =>
      (loopRun it pkgs fuel (loopBody it pkgs file queue st.dependentFiles)).map
        (fun r => (r.1, r.2 + 1))

/-- Every origin file name of every tree of every package. -/
def inScopeFiles (pkgs : List Package) : List GoString :=
  pkgs.flatMap (fun pkg => pkg.Syntax.map pkg.origin)

/-- Number of in-scope files not yet in the map (counted with multiplicity). -/
def unvisited (pkgs : List Package) (dependentFiles : List GoString) : Nat :=
  ((inScopeFiles pkgs).filter (fun f => decide (f ∉ dependentFiles))).length

/-- Fuel that the queue loop never exhausts when started on a one-element queue. -/
def iterationBound (pkgs : List Package) : Nat :=
  (inScopeFiles pkgs).length * (inScopeFiles pkgs).length + 1

/-- Go `findDependentFilesRecursively`: the keys of the returned map. -/
def findDependentFilesRecursively (it : MapIter) (file : GoString) (pkgs : List Package) :
    List GoString :=
  match loopRun it pkgs (iterationBound pkgs) ⟨[], [file]⟩ with
  | some r => r.1
  | none => []

/-! ## Entry façade -/

/-- Library function `sort.Strings`: sorts into increasing order by `<`; the result of
any correct sort is the same list, here computed by insertion. -/
def sortStrings (keys : List GoString) : List GoString :=
  keys.insertionSort (fun a b => stringLess b a = false)

/-- Go `sortMapKeys`. -/
def sortMapKeys (it : MapIter) (m : List GoString) : List GoString :=
  sortStrings (it.order m)

/-- Go `Depf`: the pair (list, error), `none` standing for `nil`. -/
def Depf (env : Env) (it : MapIter) (file : GoString) (packagePatterns : List GoString) :
    Option (List GoString) × Option String :=
  match validateFile env file with
  | some err => (none, some err)
  | none =>
    match env.Abs file with
    | .error err => (none, some ("could not get absolute path of file: " ++ err))
    | .ok absFile =>
      match loadPackages env absFile packagePatterns with
      | .error err => (none, some ("could not load packages: " ++ err))
      | .ok pkgs =>
        let dependentFiles := findDependentFilesRecursively it absFile pkgs
        (some (sortMapKeys it dependentFiles), none)

/-! ## Specification-side notions -/

/-- A package resolves identifier `n` to a symbol defined in file `g`. -/
def Resolves (pkg : Package) (n : Nat) (g : GoString) : Prop :=
  ∃ obj, pkg.TypesInfo.ObjectOf n = some obj ∧ (pkg.Fset.Position obj.Pos).Filename = g

/-- The file-depends-on relation of the scope: `f` has a tree in scope and `g` is one
of the files `findDependentFiles` returns for it. -/
def DependsOn (it : MapIter) (pkgs : List Package) (f g : GoString) : Prop :=
  ∃ t, getFile f pkgs = some t ∧ g ∈ findDependentFiles it t pkgs

/-- A chain `s = f0, f1, ..., fk = g` of file-depends-on steps, `k ≥ 0`. -/
def Reaches (it : MapIter) (pkgs : List Package) (s g : GoString) : Prop :=
  Relation.ReflTransGen (DependsOn it pkgs) s g

/-- A scope in which each file path is the origin of trees in at most one package. -/
def WellFormedScope (pkgs : List Package) : Prop :=
  ∀ p ∈ pkgs, ∀ q ∈ pkgs, ∀ f ∈ p.Syntax, ∀ f' ∈ q.Syntax, p.origin f = q.origin f' → p = q

/-- The package contains a tree whose origin is one of `files`. -/
def containsFileOf (files : List GoString) (pkg : Package) : Bool :=
  pkg.Syntax.any (fun f => decide (pkg.origin f ∈ files))

/-- The identifiers of the trees that the closure of `s` walks: those of the tree that
`getFile` gives for each file of the closure. -/
def reachedIdents (it : MapIter) (s : GoString) (pkgs : List Package) : List Nat :=
  (findDependentFilesRecursively it s pkgs).flatMap
    (fun f =>
      match getFile f pkgs with
      | some t => t.idents
      | none => [])

/-- Quantity that every iteration of the queue loop decreases. -/
def potential (pkgs : List Package) (st : LoopState) : Nat :=
  st.queue.length + unvisited pkgs st.dependentFiles * (inScopeFiles pkgs).length

/-- Invariant of the queue loop started from seed `s`. -/
structure LoopInv (it : MapIter) (pkgs : List Package) (s : GoString) (st : LoopState) :
    Prop where
  reach : ∀ g, g ∈ st.dependentFiles ∨ g ∈ st.queue → Reaches it pkgs s g
  seed : s ∈ st.dependentFiles ∨ s ∈ st.queue
  closed : ∀ f ∈ st.dependentFiles, ∀ g, DependsOn it pkgs f g →
    g ∈ st.dependentFiles ∨ g ∈ st.queue
  nodup : st.dependentFiles.Nodup
  inScope : ∀ g, g ∈ st.dependentFiles ∨ g ∈ st.queue → g = s ∨ (getFile g pkgs).isSome = true

/-- The trees of a scope in the order `Lookup` scans them: packages in the given order,
the trees of each package in order, each paired with its package. -/
def scanOrder (pkgs : List Package) : List (Package × AstFile) :=
  pkgs.flatMap (fun pkg => pkg.Syntax.map (fun f => (pkg, f)))

/-- Specification of `Lookup`: the first tree in scan order whose recorded origin equals
`path`, `none` when there is no match. -/
def Lookup (path : GoString) (scope : List Package) : Option AstFile :=
  ((scanOrder scope).find? (fun pf => decide (pf.1.origin pf.2 = path))).map Prod.snd

/-- The sum `0 + 1 + ... + (m - 1)`. -/
def triangle : Nat → Nat
  | 0 => 0
  | m + 1 => triangle m + m

/-- Number of distinct in-scope files. -/
def inScopeCount (pkgs : List Package) : Nat := (inScopeFiles pkgs).dedup.length

/-- Every file with a tree in the scope depends on every in-scope file. -/
def CompleteScope (it : MapIter) (pkgs : List Package) : Prop :=
  ∀ f t, getFile f pkgs = some t → ∀ g ∈ inScopeFiles pkgs, g ∈ findDependentFiles it t pkgs

/-- Quantity, in terms of the distinct in-scope files, that every iteration of the queue
loop decreases. -/
def potentialDistinct (pkgs : List Package) (st : LoopState) : Nat :=
  st.queue.length
    + ((inScopeFiles pkgs).dedup.filter (fun f => decide (f ∉ st.dependentFiles))).length
      * inScopeCount pkgs

/-- State of the queue loop on a complete scope once the seed has been taken off. -/
structure CliqueInv (pkgs : List Package) (st : LoopState) : Prop where
  nodup : st.dependentFiles.Nodup
  visited : ∀ f ∈ st.dependentFiles, f ∈ inScopeFiles pkgs
  queued : ∀ f ∈ st.queue, f ∈ inScopeFiles pkgs
  covered : ∀ f ∈ inScopeFiles pkgs, f ∈ st.dependentFiles ∨ f ∈ st.queue

/-! ## Example scopes -/

/-- File set of the example packages: positions 1-9 lie in `a.go`, 10-19 in `b.go`,
20-29 in `c.go`, 30-39 in `q.go`; every other position has the empty file name. -/
def exFset : FileSet :=
  ⟨fun p =>
    if p = 0 then ⟨[], 0, 0⟩
    else if p < 10 then ⟨utf8 "a.go", 1, p⟩
    else if p < 20 then ⟨utf8 "b.go", 1, p - 9⟩
    else if p < 30 then ⟨utf8 "c.go", 1, p - 19⟩
    else if p < 40 then ⟨utf8 "q.go", 1, p - 29⟩
    else ⟨[], 0, 0⟩⟩

/-- The tree of `a.go`: package clause at position 1, name identifier 100, and one
declaration holding identifiers 101 and 102. -/
def exTreeA : AstFile := ⟨1, 100, [.Other [.Ident 101, .Other [.Ident 102]]]⟩

/-- Package `P = {a.go}`: identifier 101 of `a.go` uses a symbol defined in `q.go`,
identifier 102 a symbol of the universe scope (no position). -/
def exPkgP : Package where
  Syntax := [exTreeA]
  Fset := exFset
  TypesInfo := ⟨fun n => if n = 101 then some ⟨31⟩ else if n = 102 then some ⟨0⟩ else none⟩

/-- Package `Q = {q.go}`: identifier 301 of `q.go` uses a symbol defined in `q.go`. -/
def exPkgQ : Package where
  Syntax := [⟨30, 300, [.Other [.Ident 301]]⟩]
  Fset := exFset
  TypesInfo := ⟨fun n => if n = 301 then some ⟨31⟩ else none⟩

/-- Package `R = {c.go}`: identifier 201 of `c.go` uses a symbol defined in `c.go`. -/
def exPkgR : Package where
  Syntax := [⟨20, 200, [.Other [.Ident 201]]⟩]
  Fset := exFset
  TypesInfo := ⟨fun n => if n = 201 then some ⟨21⟩ else none⟩

/-- A collaborator environment: every path is an existing regular file and is already
absolute, its directory is `/`, and the loader returns `P` and `Q` whatever the
patterns. -/
def exEnv : Env where
  Stat := fun _ => .ok ⟨false⟩
  Abs := fun file => .ok file
  Dir := fun _ => utf8 "/"
  Load := fun _ _ => .ok [exPkgP, exPkgQ]

/-- The tree of `c.go`. -/
def exTreeC : AstFile := ⟨20, 200, [.Other [.Ident 201]]⟩

/-- Package `L = {a.go, c.go}`, a variant of `P` sharing the tree of `a.go`: its table
resolves identifier 101 of `a.go` to a symbol defined in `c.go`. -/
def exPkgL : Package where
  Syntax := [exTreeA, exTreeC]
  Fset := exFset
  TypesInfo := ⟨fun n => if n = 101 then some ⟨21⟩ else none⟩

/-- The tree of `a.go` in the cycle package: identifier 401 uses a symbol of `b.go`. -/
def exTreeX : AstFile := ⟨1, 400, [.Other [.Ident 401]]⟩

/-- The tree of `b.go` in the cycle package: identifier 411 uses a symbol of `a.go`. -/
def exTreeY : AstFile := ⟨10, 410, [.Other [.Ident 411]]⟩

/-- Package `{a.go, b.go}` whose two files refer to each other. -/
def exPkgCycle : Package where
  Syntax := [exTreeX, exTreeY]
  Fset := exFset
  TypesInfo := ⟨fun n => if n = 401 then some ⟨11⟩ else if n = 411 then some ⟨2⟩ else none⟩

/-- The environment `exEnv` with a loader that fails. -/
def exEnvNoLoad : Env where
  Stat := fun _ => .ok ⟨false⟩
  Abs := fun file => .ok file
  Dir := fun _ => utf8 "/"
  Load := fun _ _ => .error "no packages"

/-- Name of the `i`-th file of the clique scope: `i` letters `a`. -/
def cliqueName (i : Nat) : GoString := List.replicate i 97

/-- File set of the clique scope: position `p` lies in the `p`-th file. -/
def cliqueFset : FileSet := ⟨fun p => ⟨cliqueName p, 1, 1⟩⟩

/-- Tree of the `i`-th file of the clique scope of `n` files: package clause at position
`i`, name identifier `i * (n + 1)`, and one declaration with the identifiers
`i * (n + 1) + j` for `j = 1, ..., n`, the `j`-th using a symbol of the `j`-th file. -/
def cliqueTree (n i : Nat) : AstFile :=
  ⟨i, i * (n + 1), [.Other ((List.range n).map (fun j => Node.Ident (i * (n + 1) + (j + 1))))]⟩

/-- The clique scope of `n` files: one package with the files `a`, `aa`, ..., each of
which uses a symbol of every file of the package. -/
def cliquePkg (n : Nat) : Package where
  Syntax := (List.range n).map (fun i => cliqueTree n (i + 1))
  Fset := cliqueFset
  TypesInfo := ⟨fun k => if k % (n + 1) = 0 then none else some ⟨k % (n + 1)⟩⟩

/-! ## Lemmas on maps -/

theorem mem_mapSet {m : List GoString} {k g : GoString} :
    g ∈ mapSet m k ↔ g = k ∨ g ∈ m := by
  unfold mapSet
  split
  · constructor
    · exact Or.inr
    · rintro (rfl | h)
      · assumption
      · exact h
  · exact List.mem_cons

theorem nodup_mapSet {m : List GoString} {k : GoString} (h : m.Nodup) :
    (mapSet m k).Nodup := by
  unfold mapSet
  split
  · exact h
  · exact List.nodup_cons.2 ⟨by assumption, h⟩

/-! ## Lemmas on the file index -/

theorem getFileIn_some {file : GoString} {pkg : Package} {fs : List AstFile} {f : AstFile}
    (h : getFileIn file pkg fs = some f) : f ∈ fs ∧ pkg.origin f = file := by
  induction fs with
  | nil => simp [getFileIn] at h
  | cons g gs ih =>
    unfold getFileIn at h
    split at h
    · cases h
      exact ⟨List.mem_cons_self _ _, by assumption⟩
    · exact ⟨List.mem_cons_of_mem _ (ih h).1, (ih h).2⟩

theorem getFileIn_none {file : GoString} {pkg : Package} {fs : List AstFile}
    (h : getFileIn file pkg fs = none) : ∀ f ∈ fs, pkg.origin f ≠ file := by
  induction fs with
  | nil => simp
  | cons g gs ih =>
    unfold getFileIn at h
    split at h
    · cases h
    · intro f hf
      rcases List.mem_cons.1 hf with rfl | hf
      · assumption
      · exact ih h f hf

theorem getFile_some {file : GoString} {pkgs : List Package} {f : AstFile}
    (h : getFile file pkgs = some f) :
    ∃ pkg ∈ pkgs, f ∈ pkg.Syntax ∧ pkg.origin f = file := by
  induction pkgs with
  | nil => simp [getFile] at h
  | cons p ps ih =>
    unfold getFile at h
    split at h
    · next g hg =>
      cases h
      exact ⟨p, List.mem_cons_self _ _, getFileIn_some hg⟩
    · obtain ⟨q, hq, hmem⟩ := ih h
      exact ⟨q, List.mem_cons_of_mem _ hq, hmem⟩

theorem getFile_none {file : GoString} {pkgs : List Package}
    (h : getFile file pkgs = none) :
    ∀ pkg ∈ pkgs, ∀ f ∈ pkg.Syntax, pkg.origin f ≠ file := by
  induction pkgs with
  | nil => simp
  | cons p ps ih =>
    unfold getFile at h
    split at h
    · cases h
    · next hn =>
      intro pkg hpkg
      rcases List.mem_cons.1 hpkg with rfl | hpkg
      · exact getFileIn_none hn
      · exact ih h pkg hpkg

theorem mem_inScopeFiles {file : GoString} {pkgs : List Package} :
    file ∈ inScopeFiles pkgs ↔ ∃ pkg ∈ pkgs, ∃ f ∈ pkg.Syntax, pkg.origin f = file := by
  simp [inScopeFiles, List.mem_flatMap]

theorem getFile_isSome_iff {file : GoString} {pkgs : List Package} :
    (getFile file pkgs).isSome ↔ file ∈ inScopeFiles pkgs := by
  rw [mem_inScopeFiles]
  constructor
  · intro h
    obtain ⟨f, hf⟩ := Option.isSome_iff_exists.1 h
    obtain ⟨pkg, hpkg, hmem, ho⟩ := getFile_some hf
    exact ⟨pkg, hpkg, f, hmem, ho⟩
  · rintro ⟨pkg, hpkg, f, hmem, ho⟩
    cases hg : getFile file pkgs with
    | some g => rfl
    | none => exact absurd ho (getFile_none hg pkg hpkg f hmem)

/-! ## Lemmas on the extractor -/

theorem mem_recordIdent {pkgs : List Package} {d : List GoString} {n : Nat} {g : GoString} :
    g ∈ recordIdent pkgs d n ↔ g ∈ d ∨ ∃ pkg ∈ pkgs, Resolves pkg n g := by
  unfold recordIdent
  induction pkgs generalizing d with
  | nil => simp
  | cons p ps ih =>
    rw [List.foldl_cons, ih]
    cases hobj : p.TypesInfo.ObjectOf n with
    | none =>
      simp only [List.mem_cons, exists_eq_or_imp, Resolves, hobj]
      simp
    | some obj =>
      simp only [List.mem_cons, exists_eq_or_imp, Resolves, hobj, mem_mapSet]
      constructor
      · rintro ((h | h) | h)
        · exact Or.inr (Or.inl ⟨obj, rfl, h.symm⟩)
        · exact Or.inl h
        · exact Or.inr (Or.inr h)
      · rintro (h | ⟨o, ho, h⟩ | h)
        · exact Or.inl (Or.inr h)
        · cases ho
          exact Or.inl (Or.inl h.symm)
        · exact Or.inr h

theorem nodup_recordIdent {pkgs : List Package} {d : List GoString} {n : Nat}
    (hd : d.Nodup) : (recordIdent pkgs d n).Nodup := by
  unfold recordIdent
  induction pkgs generalizing d with
  | nil => simpa using hd
  | cons p ps ih =>
    rw [List.foldl_cons]
    apply ih
    cases p.TypesInfo.ObjectOf n with
    | none => exact hd
    | some obj => exact nodup_mapSet hd

theorem mem_foldl_recordIdent {pkgs : List Package} {ns : List Nat} {d : List GoString}
    {g : GoString} :
    g ∈ ns.foldl (recordIdent pkgs) d ↔ g ∈ d ∨ ∃ n ∈ ns, ∃ pkg ∈ pkgs, Resolves pkg n g := by
  induction ns generalizing d with
  | nil => simp
  | cons n ns ih =>
    rw [List.foldl_cons, ih, mem_recordIdent]
    constructor
    · rintro ((h | h) | ⟨m, hm, h⟩)
      · exact Or.inl h
      · exact Or.inr ⟨n, List.mem_cons_self _ _, h⟩
      · exact Or.inr ⟨m, List.mem_cons_of_mem _ hm, h⟩
    · rintro (h | ⟨m, hm, h⟩)
      · exact Or.inl (Or.inl h)
      · rcases List.mem_cons.1 hm with rfl | hm
        · exact Or.inl (Or.inr h)
        · exact Or.inr ⟨m, hm, h⟩

theorem nodup_foldl_recordIdent {pkgs : List Package} {ns : List Nat} {d : List GoString}
    (hd : d.Nodup) : (ns.foldl (recordIdent pkgs) d).Nodup := by
  induction ns generalizing d with
  | nil => simpa using hd
  | cons n ns ih =>
    rw [List.foldl_cons]
    exact ih (nodup_recordIdent hd)

theorem mem_recordedFiles {t : AstFile} {pkgs : List Package} {g : GoString} :
    g ∈ recordedFiles t pkgs ↔ ∃ n ∈ t.idents, ∃ pkg ∈ pkgs, Resolves pkg n g := by
  unfold recordedFiles
  rw [mem_foldl_recordIdent]
  simp

theorem mem_findDependentFiles {it : MapIter} {t : AstFile} {pkgs : List Package}
    {g : GoString} :
    g ∈ findDependentFiles it t pkgs ↔
      g ∈ recordedFiles t pkgs ∧ (getFile g pkgs).isSome = true := by
  unfold findDependentFiles
  rw [List.mem_filter, (it.perm _).mem_iff]

theorem nodup_findDependentFiles (it : MapIter) (t : AstFile) (pkgs : List Package) :
    (findDependentFiles it t pkgs).Nodup := by
  unfold findDependentFiles
  apply List.Nodup.filter
  rw [(it.perm _).nodup_iff]
  exact nodup_foldl_recordIdent List.nodup_nil

theorem length_findDependentFiles_le (it : MapIter) (t : AstFile) (pkgs : List Package) :
    (findDependentFiles it t pkgs).length ≤ (inScopeFiles pkgs).length := by
  apply List.Subperm.length_le
  apply List.subperm_of_subset (nodup_findDependentFiles it t pkgs)
  intro g hg
  exact getFile_isSome_iff.1 (mem_findDependentFiles.1 hg).2

/-! ## Termination of the queue loop -/

theorem unvisited_mapSet_le (pkgs : List Package) (d : List GoString) (f : GoString) :
    unvisited pkgs (mapSet d f) ≤ unvisited pkgs d := by
  unfold unvisited
  rw [← List.countP_eq_length_filter, ← List.countP_eq_length_filter]
  apply List.countP_mono_left
  intro x _ hx
  simp only [decide_eq_true_eq] at hx ⊢
  exact fun h => hx (mem_mapSet.2 (Or.inr h))

theorem filter_not_mem_mapSet_lt (f : GoString) (d l : List GoString) (hl : f ∈ l)
    (hd : f ∉ d) :
    (l.filter (fun x => decide (x ∉ mapSet d f))).length
      < (l.filter (fun x => decide (x ∉ d))).length := by
  induction l with
  | nil => simp at hl
  | cons a as ih =>
    have hle : (as.filter (fun x => decide (x ∉ mapSet d f))).length
        ≤ (as.filter (fun x => decide (x ∉ d))).length := by
      rw [← List.countP_eq_length_filter, ← List.countP_eq_length_filter]
      apply List.countP_mono_left
      intro x _ hx
      simp only [decide_eq_true_eq] at hx ⊢
      exact fun h => hx (mem_mapSet.2 (Or.inr h))
    by_cases ha : a = f
    · subst ha
      have h2 : a ∈ mapSet d a := mem_mapSet.2 (Or.inl rfl)
      rw [List.filter_cons_of_neg (by simpa using h2),
        List.filter_cons_of_pos (by simpa using hd), List.length_cons]
      omega
    · have hmem : f ∈ as := by
        rcases List.mem_cons.1 hl with h | h
        · exact absurd h.symm ha
        · exact h
      have := ih hmem
      by_cases h1 : a ∈ d
      · have h2 : a ∈ mapSet d f := mem_mapSet.2 (Or.inr h1)
        rw [List.filter_cons_of_neg (by simpa using h2),
          List.filter_cons_of_neg (by simpa using h1)]
        exact this
      · have h2 : a ∉ mapSet d f := by
          rw [mem_mapSet]
          rintro (h | h)
          · exact ha h
          · exact h1 h
        rw [List.filter_cons_of_pos (by simpa using h2),
          List.filter_cons_of_pos (by simpa using h1), List.length_cons, List.length_cons]
        omega

theorem unvisited_mapSet_lt (pkgs : List Package) (d : List GoString) (f : GoString)
    (hin : f ∈ inScopeFiles pkgs) (hd : f ∉ d) :
    unvisited pkgs (mapSet d f) < unvisited pkgs d :=
  filter_not_mem_mapSet_lt f d (inScopeFiles pkgs) hin hd

theorem unvisited_nil (pkgs : List Package) :
    unvisited pkgs [] = (inScopeFiles pkgs).length := by
  simp [unvisited]

/-- Each iteration of the queue loop decreases the potential. -/
theorem loopBody_potential (it : MapIter) (pkgs : List Package) (file : GoString)
    (queue dependentFiles : List GoString) :
    potential pkgs (loopBody it pkgs file queue dependentFiles)
      < potential pkgs ⟨dependentFiles, file :: queue⟩ := by
  unfold loopBody potential
  split
  · simp
  · next hvis =>
    split
    · next hnone =>
      have hle := unvisited_mapSet_le pkgs dependentFiles file
      have := Nat.mul_le_mul_right (inScopeFiles pkgs).length hle
      simp only [List.length_cons]
      omega
    · next astFile hsome =>
      have hin : file ∈ inScopeFiles pkgs :=
        getFile_isSome_iff.1 (by rw [hsome]; rfl)
      have hlt := unvisited_mapSet_lt pkgs dependentFiles file hin hvis
      have hmul : (unvisited pkgs (mapSet dependentFiles file) + 1) * (inScopeFiles pkgs).length
          ≤ unvisited pkgs dependentFiles * (inScopeFiles pkgs).length :=
        Nat.mul_le_mul_right _ hlt
      have hpush : ((findDependentFiles it astFile pkgs).filter
          (fun f => decide (f ∉ mapSet dependentFiles file))).length
            ≤ (inScopeFiles pkgs).length :=
        Nat.le_trans (List.length_filter_le _ _) (length_findDependentFiles_le it astFile pkgs)
      rw [Nat.add_mul, Nat.one_mul] at hmul
      simp only [List.length_cons, List.length_append]
      omega

/-- With fuel at least the potential, the queue loop leaves through its condition. -/
theorem loopRun_of_potential_le (it : MapIter) (pkgs : List Package) (fuel : Nat)
    (st : LoopState) (h : potential pkgs st ≤ fuel) :
    ∃ r, loopRun it pkgs fuel st = some r ∧ r.2 ≤ potential pkgs st := by
  induction fuel generalizing st with
  | zero =>
    obtain ⟨d, q⟩ := st
    cases q with
    | nil => exact ⟨(d, 0), rfl, Nat.zero_le _⟩
    | cons a q =>
      simp [potential] at h
  | succ n ih =>
    obtain ⟨d, q⟩ := st
    cases q with
    | nil => exact ⟨(d, 0), rfl, Nat.zero_le _⟩
    | cons a q =>
      have hlt := loopBody_potential it pkgs a q d
      obtain ⟨r, hr, hk⟩ := ih (loopBody it pkgs a q d) (by omega)
      refine ⟨(r.1, r.2 + 1), ?_, ?_⟩
      · simp [loopRun, hr]
      · show r.2 + 1 ≤ _
        omega

/-- More fuel does not change the outcome of a run that left the loop. -/
theorem loopRun_mono (it : MapIter) (pkgs : List Package) (fuel extra : Nat)
    (st : LoopState) (r : List GoString × Nat) (h : loopRun it pkgs fuel st = some r) :
    loopRun it pkgs (fuel + extra) st = some r := by
  induction fuel generalizing st r with
  | zero =>
    obtain ⟨d, q⟩ := st
    cases q with
    | nil =>
      cases extra with
      | zero => exact h
      | succ e => simpa [loopRun] using h
    | cons a q => simp [loopRun] at h
  | succ n ih =>
    obtain ⟨d, q⟩ := st
    rw [Nat.add_right_comm]
    cases q with
    | nil => simpa [loopRun] using h
    | cons a q =>
      simp only [loopRun, Option.map_eq_some'] at h ⊢
      obtain ⟨r', hr', hrr⟩ := h
      exact ⟨r', ih _ _ hr', hrr⟩

theorem potential_init (pkgs : List Package) (file : GoString) :
    potential pkgs ⟨[], [file]⟩ = iterationBound pkgs := by
  simp [potential, iterationBound, unvisited_nil, Nat.add_comm]

/-- The fuel `iterationBound` is not exhausted: the loop of
`findDependentFilesRecursively` leaves through its condition. -/
theorem loopRun_iterationBound (it : MapIter) (pkgs : List Package) (file : GoString) :
    ∃ k, loopRun it pkgs (iterationBound pkgs) ⟨[], [file]⟩
      = some (findDependentFilesRecursively it file pkgs, k) ∧ k ≤ iterationBound pkgs := by
  obtain ⟨r, hr, hk⟩ := loopRun_of_potential_le it pkgs (iterationBound pkgs) ⟨[], [file]⟩
    (Nat.le_of_eq (potential_init pkgs file))
  refine ⟨r.2, ?_, ?_⟩
  · simp only [findDependentFilesRecursively, hr]
  · rw [potential_init] at hk
    exact hk

/-! ## Invariant of the queue loop -/

theorem loopInv_init (it : MapIter) (pkgs : List Package) (s : GoString) :
    LoopInv it pkgs s ⟨[], [s]⟩ where
  reach := by
    rintro g (h | h)
    · simp at h
    · rw [List.mem_singleton.1 h]
      exact Relation.ReflTransGen.refl
  seed := Or.inr (List.mem_singleton_self s)
  closed := by
    intro f hf
    simp at hf
  nodup := List.nodup_nil
  inScope := by
    rintro g (h | h)
    · simp at h
    · exact Or.inl (List.mem_singleton.1 h)

theorem loopBody_inv (it : MapIter) (pkgs : List Package) (s file : GoString)
    (queue d : List GoString) (h : LoopInv it pkgs s ⟨d, file :: queue⟩) :
    LoopInv it pkgs s (loopBody it pkgs file queue d) := by
  obtain ⟨hreach, hseed, hclosed, hnodup, hscope⟩ := h
  simp only [List.mem_cons] at hreach hseed hclosed hscope
  unfold loopBody
  split
  · next hvis =>
    refine ⟨?_, ?_, ?_, hnodup, ?_⟩
    · rintro g (hg | hg)
      · exact hreach g (Or.inl hg)
      · exact hreach g (Or.inr (Or.inr hg))
    · rcases hseed with hs | rfl | hs
      · exact Or.inl hs
      · exact Or.inl hvis
      · exact Or.inr hs
    · intro f hf g hdep
      rcases hclosed f hf g hdep with hg | rfl | hg
      · exact Or.inl hg
      · exact Or.inl hvis
      · exact Or.inr hg
    · rintro g (hg | hg)
      · exact hscope g (Or.inl hg)
      · exact hscope g (Or.inr (Or.inr hg))
  · next hvis =>
    split
    · next hnone =>
      refine ⟨?_, ?_, ?_, nodup_mapSet hnodup, ?_⟩
      · rintro g (hg | hg)
        · rcases mem_mapSet.1 hg with rfl | hg
          · exact hreach g (Or.inr (Or.inl rfl))
          · exact hreach g (Or.inl hg)
        · exact hreach g (Or.inr (Or.inr hg))
      · rcases hseed with hs | rfl | hs
        · exact Or.inl (mem_mapSet.2 (Or.inr hs))
        · exact Or.inl (mem_mapSet.2 (Or.inl rfl))
        · exact Or.inr hs
      · intro f hf g hdep
        rcases mem_mapSet.1 hf with rfl | hf
        · obtain ⟨t, ht, _⟩ := hdep
          rw [hnone] at ht
          cases ht
        · rcases hclosed f hf g hdep with hg | rfl | hg
          · exact Or.inl (mem_mapSet.2 (Or.inr hg))
          · exact Or.inl (mem_mapSet.2 (Or.inl rfl))
          · exact Or.inr hg
      · rintro g (hg | hg)
        · rcases mem_mapSet.1 hg with rfl | hg
          · exact hscope g (Or.inr (Or.inl rfl))
          · exact hscope g (Or.inl hg)
        · exact hscope g (Or.inr (Or.inr hg))
    · next astFile hsome =>
      have hfile : Reaches it pkgs s file := hreach file (Or.inr (Or.inl rfl))
      refine ⟨?_, ?_, ?_, nodup_mapSet hnodup, ?_⟩
      · rintro g (hg | hg)
        · rcases mem_mapSet.1 hg with rfl | hg
          · exact hfile
          · exact hreach g (Or.inl hg)
        · rcases List.mem_append.1 hg with hg | hg
          · exact hreach g (Or.inr (Or.inr hg))
          · exact Relation.ReflTransGen.tail hfile ⟨astFile, hsome, (List.mem_filter.1 hg).1⟩
      · rcases hseed with hs | rfl | hs
        · exact Or.inl (mem_mapSet.2 (Or.inr hs))
        · exact Or.inl (mem_mapSet.2 (Or.inl rfl))
        · exact Or.inr (List.mem_append.2 (Or.inl hs))
      · intro f hf g hdep
        rcases mem_mapSet.1 hf with rfl | hf
        · obtain ⟨t, ht, hg⟩ := hdep
          rw [hsome] at ht
          cases ht
          by_cases hin : g ∈ mapSet d f
          · exact Or.inl hin
          · exact Or.inr (List.mem_append.2 (Or.inr (List.mem_filter.2 ⟨hg, by simpa using hin⟩)))
        · rcases hclosed f hf g hdep with hg | rfl | hg
          · exact Or.inl (mem_mapSet.2 (Or.inr hg))
          · exact Or.inl (mem_mapSet.2 (Or.inl rfl))
          · exact Or.inr (List.mem_append.2 (Or.inl hg))
      · rintro g (hg | hg)
        · rcases mem_mapSet.1 hg with rfl | hg
          · exact hscope g (Or.inr (Or.inl rfl))
          · exact hscope g (Or.inl hg)
        · rcases List.mem_append.1 hg with hg | hg
          · exact hscope g (Or.inr (Or.inr hg))
          · exact Or.inr (mem_findDependentFiles.1 (List.mem_filter.1 hg).1).2

theorem loopRun_inv (it : MapIter) (pkgs : List Package) (s : GoString) (fuel : Nat)
    (st : LoopState) (r : List GoString × Nat) (hinv : LoopInv it pkgs s st)
    (hr : loopRun it pkgs fuel st = some r) : LoopInv it pkgs s ⟨r.1, []⟩ := by
  induction fuel generalizing st r with
  | zero =>
    obtain ⟨d, q⟩ := st
    cases q with
    | nil =>
      simp only [loopRun, Option.some.injEq] at hr
      subst hr
      exact hinv
    | cons a q => simp [loopRun] at hr
  | succ n ih =>
    obtain ⟨d, q⟩ := st
    cases q with
    | nil =>
      simp only [loopRun, Option.some.injEq] at hr
      subst hr
      exact hinv
    | cons a q =>
      simp only [loopRun, Option.map_eq_some'] at hr
      obtain ⟨r', hr', hrr⟩ := hr
      subst hrr
      exact ih _ r' (loopBody_inv it pkgs s a q d hinv) hr'

/-- The map returned by `findDependentFilesRecursively` satisfies the loop invariant
with an empty queue. -/
theorem closure_inv (it : MapIter) (pkgs : List Package) (s : GoString) :
    LoopInv it pkgs s ⟨findDependentFilesRecursively it s pkgs, []⟩ := by
  obtain ⟨k, hk, _⟩ := loopRun_iterationBound it pkgs s
  exact loopRun_inv it pkgs s _ _ _ (loopInv_init it pkgs s) hk

theorem mem_closure_iff_reaches (it : MapIter) (pkgs : List Package) (s g : GoString) :
    g ∈ findDependentFilesRecursively it s pkgs ↔ Reaches it pkgs s g := by
  have hinv := closure_inv it pkgs s
  constructor
  · intro hg
    exact hinv.reach g (Or.inl hg)
  · intro hg
    induction hg with
    | refl =>
      rcases hinv.seed with h | h
      · exact h
      · simp at h
    | tail _ hstep ih =>
      rcases hinv.closed _ ih _ hstep with h | h
      · exact h
      · simp at h

theorem nodup_closure (it : MapIter) (pkgs : List Package) (s : GoString) :
    (findDependentFilesRecursively it s pkgs).Nodup :=
  (closure_inv it pkgs s).nodup

/-- The file-depends-on relation does not depend on the map enumeration order. -/
theorem dependsOn_iff {it : MapIter} {pkgs : List Package} {f g : GoString} :
    DependsOn it pkgs f g ↔
      ∃ t, getFile f pkgs = some t ∧ g ∈ recordedFiles t pkgs ∧ g ∈ inScopeFiles pkgs := by
  unfold DependsOn
  simp only [mem_findDependentFiles, getFile_isSome_iff]

/-! ## Byte order and sorting -/

theorem stringLess_iff_lex (a b : GoString) :
    stringLess a b = true ↔ List.Lex (· < ·) a b := by
  induction a generalizing b with
  | nil =>
    cases b with
    | nil =>
      simp only [stringLess, Bool.false_eq_true, false_iff]
      exact List.Lex.not_nil_right _ _
    | cons y ys =>
      simp only [stringLess, true_iff]
      exact List.Lex.nil
  | cons x xs ih =>
    cases b with
    | nil =>
      simp only [stringLess, Bool.false_eq_true, false_iff]
      exact List.Lex.not_nil_right _ _
    | cons y ys =>
      simp only [stringLess, Bool.or_eq_true, Bool.and_eq_true, decide_eq_true_eq, ih]
      constructor
      · rintro (h | ⟨rfl, h⟩)
        · exact List.Lex.rel h
        · exact List.Lex.cons h
      · intro h
        cases h with
        | cons h => exact Or.inr ⟨rfl, h⟩
        | rel h => exact Or.inl h

theorem stringLess_asymm {a b : GoString} (h : stringLess a b = true) :
    stringLess b a = false := by
  cases hba : stringLess b a with
  | false => rfl
  | true =>
    exact absurd ((stringLess_iff_lex b a).1 hba)
      (asymm_of (List.Lex (· < · : Nat → Nat → Prop)) ((stringLess_iff_lex a b).1 h))

theorem stringLess_of_ne {a b : GoString} (hne : a ≠ b) (h : stringLess b a = false) :
    stringLess a b = true := by
  rcases trichotomous_of (List.Lex (· < · : Nat → Nat → Prop)) a b with hab | hab | hab
  · exact (stringLess_iff_lex a b).2 hab
  · exact absurd hab hne
  · rw [(stringLess_iff_lex b a).2 hab] at h
    cases h

theorem stringLess_trans {a b c : GoString} (hab : stringLess a b = true)
    (hbc : stringLess b c = true) : stringLess a c = true :=
  (stringLess_iff_lex a c).2
    (trans_of (List.Lex (· < · : Nat → Nat → Prop))
      ((stringLess_iff_lex a b).1 hab) ((stringLess_iff_lex b c).1 hbc))

theorem notLess_total (a b : GoString) : stringLess b a = false ∨ stringLess a b = false := by
  cases hba : stringLess b a with
  | false => exact Or.inl rfl
  | true => exact Or.inr (stringLess_asymm hba)

theorem notLess_trans {a b c : GoString} (hab : stringLess b a = false)
    (hbc : stringLess c b = false) : stringLess c a = false := by
  cases hca : stringLess c a with
  | false => rfl
  | true =>
    by_cases hne : a = b
    · subst hne
      rw [hca] at hbc
      cases hbc
    · have h1 := stringLess_of_ne hne hab
      have h2 := stringLess_trans hca h1
      rw [h2] at hbc
      cases hbc

/-- The result of `sortStrings` holds the elements of its argument. -/
theorem sortStrings_perm (keys : List GoString) : (sortStrings keys).Perm keys :=
  List.perm_insertionSort _ keys

/-- The result of `sortStrings` on distinct keys is strictly ascending. -/
theorem sortStrings_strict (keys : List GoString) (h : keys.Nodup) :
    (sortStrings keys).Pairwise (fun a b => stringLess a b = true) := by
  have htotal : IsTotal GoString (fun a b => stringLess b a = false) := ⟨notLess_total⟩
  have htrans : IsTrans GoString (fun a b => stringLess b a = false) :=
    ⟨fun _ _ _ => notLess_trans⟩
  have hsorted : (sortStrings keys).Pairwise (fun a b => stringLess b a = false) :=
    List.sorted_insertionSort _ keys
  have hnodup : (sortStrings keys).Pairwise (fun a b => a ≠ b) :=
    (sortStrings_perm keys).nodup_iff.2 h
  exact (hsorted.and hnodup).imp (fun hab => stringLess_of_ne hab.2 hab.1)

/-! ## Properties of the closure -/

/-- Claim C1: a file is a key of the map returned by `findDependentFilesRecursively`
exactly when a chain of file-depends-on steps (each through `getFile` and
`findDependentFiles`), of length zero or more, leads from the seed to it. -/
theorem closure_iff_chain (it : MapIter) (s : GoString) (pkgs : List Package) (g : GoString) :
    g ∈ findDependentFilesRecursively it s pkgs ↔
      ∃ chain : List GoString,
        List.Chain
          (fun f f' => ∃ t, getFile f pkgs = some t ∧ f' ∈ findDependentFiles it t pkgs)
          s chain ∧
        (s :: chain).getLast (List.cons_ne_nil s chain) = g := by
  rw [mem_closure_iff_reaches]
  constructor
  · intro h
    exact List.exists_chain_of_relationReflTransGen h
  · rintro ⟨chain, hchain, hlast⟩
    exact List.relationReflTransGen_of_exists_chain chain hchain hlast

/-- Claim C2: the seed is a key of the map the closure returns, whatever the scope, and
when `Depf` succeeds the canonical seed is an element of the list it returns. -/
theorem seed_mem_closure (it : MapIter) :
    (∀ (s : GoString) (pkgs : List Package), s ∈ findDependentFilesRecursively it s pkgs) ∧
    (∀ (env : Env) (file : GoString) (packagePatterns : List GoString) (l : List GoString),
      Depf env it file packagePatterns = (some l, none) →
        ∃ absFile, env.Abs file = .ok absFile ∧ absFile ∈ l) := by
  have hseed : ∀ (s : GoString) (pkgs : List Package),
      s ∈ findDependentFilesRecursively it s pkgs := fun s pkgs =>
    (mem_closure_iff_reaches it pkgs s s).2 Relation.ReflTransGen.refl
  refine ⟨hseed, ?_⟩
  intro env file pats l h
  unfold Depf at h
  split at h
  · simp at h
  · split at h
    · simp at h
    · next absFile habs =>
      split at h
      · simp at h
      · next pkgs hload =>
        simp only [Prod.mk.injEq, Option.some.injEq, and_true] at h
        subst h
        refine ⟨absFile, habs, ?_⟩
        unfold sortMapKeys sortStrings
        rw [(List.perm_insertionSort _ _).mem_iff, (it.perm _).mem_iff]
        exact hseed absFile pkgs

/-- Claim C3: when `Depf` succeeds, the list it returns is strictly ascending in byte
order (hence sorted, no element twice) and its elements are the keys of the map that
`findDependentFilesRecursively` returned for the canonical seed and the loaded scope. -/
theorem Depf_strictly_ascending (env : Env) (it : MapIter) (file : GoString)
    (packagePatterns : List GoString) (l : List GoString)
    (h : Depf env it file packagePatterns = (some l, none)) :
    l.Pairwise (fun a b => stringLess a b = true) ∧
    ∃ absFile pkgs, env.Abs file = .ok absFile ∧
      loadPackages env absFile packagePatterns = .ok pkgs ∧
      ∀ g, g ∈ l ↔ g ∈ findDependentFilesRecursively it absFile pkgs := by
  unfold Depf at h
  split at h
  · simp at h
  · split at h
    · simp at h
    · next absFile habs =>
      split at h
      · simp at h
      · next pkgs hload =>
        simp only [Prod.mk.injEq, Option.some.injEq, and_true] at h
        subst h
        refine ⟨?_, absFile, pkgs, habs, hload, ?_⟩
        · apply sortStrings_strict
          rw [(it.perm _).nodup_iff]
          exact nodup_closure it pkgs absFile
        · intro g
          unfold sortMapKeys
          rw [(sortStrings_perm _).mem_iff, (it.perm _).mem_iff]

/-- Claim C4: the closure result is closed under file-depends-on: the files that
`findDependentFiles` returns for the tree of a file of the result are in the result. -/
theorem closure_closed (it : MapIter) (s : GoString) (pkgs : List Package)
    (f : GoString) (t : AstFile) (g : GoString)
    (hf : f ∈ findDependentFilesRecursively it s pkgs)
    (ht : getFile f pkgs = some t)
    (hg : g ∈ findDependentFiles it t pkgs) :
    g ∈ findDependentFilesRecursively it s pkgs := by
  rw [mem_closure_iff_reaches] at hf ⊢
  exact Relation.ReflTransGen.tail hf ⟨t, ht, hg⟩

/-- Claim C5: every file of the closure result other than the seed has a tree in the
scope; so a file an identifier resolves to that is the origin of no tree of any loaded
package, and is not the seed, is not in the result. -/
theorem closure_in_scope (it : MapIter) (s : GoString) (pkgs : List Package) :
    (∀ f ∈ findDependentFilesRecursively it s pkgs, f ≠ s → getFile f pkgs ≠ none) ∧
    (∀ (n : Nat) (pkg : Package) (f : GoString), pkg ∈ pkgs → Resolves pkg n f →
      (∀ q ∈ pkgs, ∀ t ∈ q.Syntax, q.origin t ≠ f) → f ≠ s →
        f ∉ findDependentFilesRecursively it s pkgs) := by
  have hscope : ∀ f ∈ findDependentFilesRecursively it s pkgs, f ≠ s →
      getFile f pkgs ≠ none := by
    intro f hf hne
    rcases (closure_inv it pkgs s).inScope f (Or.inl hf) with h | h
    · exact absurd h hne
    · intro hnone
      rw [hnone] at h
      cases h
  refine ⟨hscope, ?_⟩
  intro n pkg f _ _ hout hne hf
  have hsome := hscope f hf hne
  cases hget : getFile f pkgs with
  | none => exact hsome hget
  | some t =>
    obtain ⟨q, hq, ht, ho⟩ := getFile_some hget
    exact hout q hq t ht ho

/-- Claim C6: the queue loop of `findDependentFilesRecursively` terminates: from every
state (any map, any queue, duplicates and cycles included) some fuel lets the loop leave
through its condition, and from the one-element queue of a seed the fuel
`iterationBound` does, giving the map the function returns. -/
theorem queue_loop_terminates (it : MapIter) (pkgs : List Package) :
    (∀ st : LoopState, ∃ fuel m k, ∀ extra,
      loopRun it pkgs (fuel + extra) st = some (m, k)) ∧
    (∀ s : GoString, ∃ k,
      loopRun it pkgs (iterationBound pkgs) ⟨[], [s]⟩
        = some (findDependentFilesRecursively it s pkgs, k)) := by
  constructor
  · intro st
    obtain ⟨r, hr, _⟩ := loopRun_of_potential_le it pkgs (potential pkgs st) st (Nat.le_refl _)
    exact ⟨potential pkgs st, r.1, r.2, fun extra => loopRun_mono it pkgs _ extra st r hr⟩
  · intro s
    obtain ⟨k, hk, _⟩ := loopRun_iterationBound it pkgs s
    exact ⟨k, hk⟩

/-- Claim C7: idempotence under expansion: the closure of a seed is the union of the
closures, in the same scope, of the files of that closure. -/
theorem closure_expansion (it : MapIter) (s : GoString) (pkgs : List Package) (g : GoString) :
    g ∈ findDependentFilesRecursively it s pkgs ↔
      ∃ f ∈ findDependentFilesRecursively it s pkgs,
        g ∈ findDependentFilesRecursively it f pkgs := by
  simp only [mem_closure_iff_reaches]
  constructor
  · intro h
    exact ⟨s, Relation.ReflTransGen.refl, h⟩
  · rintro ⟨f, hf, hg⟩
    exact Relation.ReflTransGen.trans hf hg

/-! ## Comparing scopes -/

theorem getFile_some_in {file : GoString} {pkgs : List Package} {f : AstFile}
    (h : getFile file pkgs = some f) :
    ∃ pkg ∈ pkgs, getFileIn file pkg pkg.Syntax = some f := by
  induction pkgs with
  | nil => simp [getFile] at h
  | cons p ps ih =>
    unfold getFile at h
    split at h
    · next g hg =>
      cases h
      exact ⟨p, List.mem_cons_self _ _, hg⟩
    · obtain ⟨q, hq, hin⟩ := ih h
      exact ⟨q, List.mem_cons_of_mem _ hq, hin⟩

theorem getFileIn_eq_none {file : GoString} {pkg : Package} {fs : List AstFile}
    (h : ∀ f ∈ fs, pkg.origin f ≠ file) : getFileIn file pkg fs = none := by
  cases hg : getFileIn file pkg fs with
  | none => rfl
  | some f => exact absurd (getFileIn_some hg).2 (h f (getFileIn_some hg).1)

/-- The closures of a seed in two scopes agree when the two file-depends-on relations
agree on the files of the first closure. -/
theorem closure_congr (it : MapIter) (s : GoString) (pkgs pkgs' : List Package)
    (h : ∀ f ∈ findDependentFilesRecursively it s pkgs, ∀ g,
      DependsOn it pkgs f g ↔ DependsOn it pkgs' f g) (g : GoString) :
    g ∈ findDependentFilesRecursively it s pkgs' ↔
      g ∈ findDependentFilesRecursively it s pkgs := by
  constructor
  · intro hg
    rw [mem_closure_iff_reaches] at hg
    induction hg with
    | refl => exact (mem_closure_iff_reaches it pkgs s s).2 Relation.ReflTransGen.refl
    | tail _ hstep ih =>
      rw [mem_closure_iff_reaches] at ih ⊢
      exact Relation.ReflTransGen.tail ih
        ((h _ ((mem_closure_iff_reaches it pkgs s _).2 ih) _).2 hstep)
  · intro hg
    rw [mem_closure_iff_reaches] at hg ⊢
    induction hg with
    | refl => exact Relation.ReflTransGen.refl
    | tail hreach hstep ih =>
      exact Relation.ReflTransGen.tail ih
        ((h _ ((mem_closure_iff_reaches it pkgs s _).2 hreach) _).1 hstep)

theorem getFile_mono {scope1 scope2 : List Package} (hsub : ∀ pkg ∈ scope1, pkg ∈ scope2)
    (hwf : WellFormedScope scope2) {file : GoString} {t : AstFile}
    (h : getFile file scope1 = some t) : getFile file scope2 = some t := by
  obtain ⟨p, hp, hpin⟩ := getFile_some_in h
  obtain ⟨hmem, ho⟩ := getFileIn_some hpin
  have hin : file ∈ inScopeFiles scope2 :=
    mem_inScopeFiles.2 ⟨p, hsub p hp, t, hmem, ho⟩
  obtain ⟨t', ht'⟩ := Option.isSome_iff_exists.1 (getFile_isSome_iff.2 hin)
  obtain ⟨q, hq, hqin⟩ := getFile_some_in ht'
  obtain ⟨hmem', ho'⟩ := getFileIn_some hqin
  have hqp : q = p := hwf q hq p (hsub p hp) t' hmem' t hmem (ho'.trans ho.symm)
  subst hqp
  rw [hpin] at hqin
  cases hqin
  exact ht'

theorem dependsOn_mono (it : MapIter) {scope1 scope2 : List Package}
    (hsub : ∀ pkg ∈ scope1, pkg ∈ scope2) (hwf : WellFormedScope scope2) {f g : GoString}
    (h : DependsOn it scope1 f g) : DependsOn it scope2 f g := by
  rw [dependsOn_iff] at h ⊢
  obtain ⟨t, ht, hrec, hin⟩ := h
  refine ⟨t, getFile_mono hsub hwf ht, ?_, ?_⟩
  · obtain ⟨n, hn, pkg, hpkg, hres⟩ := mem_recordedFiles.1 hrec
    exact mem_recordedFiles.2 ⟨n, hn, pkg, hsub pkg hpkg, hres⟩
  · obtain ⟨pkg, hpkg, hf⟩ := mem_inScopeFiles.1 hin
    exact mem_inScopeFiles.2 ⟨pkg, hsub pkg hpkg, hf⟩

theorem getFile_filter (keep : Package → Bool) (file : GoString) (pkgs : List Package)
    (h : ∀ pkg ∈ pkgs, (∃ f ∈ pkg.Syntax, pkg.origin f = file) → keep pkg = true) :
    getFile file (pkgs.filter keep) = getFile file pkgs := by
  induction pkgs with
  | nil => rfl
  | cons p ps ih =>
    have ih' := ih (fun pkg hpkg => h pkg (List.mem_cons_of_mem _ hpkg))
    cases hk : keep p with
    | true =>
      rw [List.filter_cons_of_pos hk]
      unfold getFile
      rw [ih']
    | false =>
      rw [List.filter_cons_of_neg (by simp [hk]), ih']
      have hnone : getFileIn file p p.Syntax = none := by
        apply getFileIn_eq_none
        intro f hf ho
        have := h p (List.mem_cons_self _ _) ⟨f, hf, ho⟩
        rw [hk] at this
        cases this
      conv_rhs => unfold getFile
      rw [hnone]

theorem containsFileOf_of_mem {files : List GoString} {pkg : Package} {file : GoString}
    (hfile : file ∈ files) (h : ∃ f ∈ pkg.Syntax, pkg.origin f = file) :
    containsFileOf files pkg = true := by
  obtain ⟨f, hf, ho⟩ := h
  unfold containsFileOf
  rw [List.any_eq_true]
  exact ⟨f, hf, by simpa [ho] using hfile⟩

theorem dependsOn_perm (it : MapIter) {scope scope' : List Package} (files : List GoString)
    (hperm : scope'.Perm scope)
    (hkeep : scope'.filter (containsFileOf files) = scope.filter (containsFileOf files))
    {f : GoString} (hf : f ∈ files) (g : GoString) :
    DependsOn it scope f g ↔ DependsOn it scope' f g := by
  have hget : getFile f scope' = getFile f scope := by
    rw [← getFile_filter (containsFileOf files) f scope'
        (fun pkg _ h => containsFileOf_of_mem hf h),
      ← getFile_filter (containsFileOf files) f scope
        (fun pkg _ h => containsFileOf_of_mem hf h), hkeep]
  have hrec : ∀ t, g ∈ recordedFiles t scope' ↔ g ∈ recordedFiles t scope := by
    intro t
    simp only [mem_recordedFiles, hperm.mem_iff]
  have hin : g ∈ inScopeFiles scope' ↔ g ∈ inScopeFiles scope := by
    simp only [mem_inScopeFiles, hperm.mem_iff]
  simp only [dependsOn_iff, hget, hrec, hin]

theorem getFile_insert (file : GoString) (l1 l2 : List Package) (q : Package)
    (h : ∀ t ∈ q.Syntax, q.origin t ≠ file) :
    getFile file (l1 ++ q :: l2) = getFile file (l1 ++ l2) := by
  induction l1 with
  | nil =>
    simp only [List.nil_append]
    conv_lhs => unfold getFile
    rw [getFileIn_eq_none h]
  | cons p ps ih =>
    simp only [List.cons_append]
    unfold getFile
    rw [ih]

theorem mem_reachedIdents {it : MapIter} {s : GoString} {pkgs : List Package} {n : Nat} :
    n ∈ reachedIdents it s pkgs ↔
      ∃ f ∈ findDependentFilesRecursively it s pkgs, ∃ t, getFile f pkgs = some t ∧
        n ∈ t.idents := by
  unfold reachedIdents
  rw [List.mem_flatMap]
  constructor
  · rintro ⟨f, hf, hn⟩
    cases ht : getFile f pkgs with
    | none => simp [ht] at hn
    | some t =>
      rw [ht] at hn
      exact ⟨f, hf, t, ht, hn⟩
  · rintro ⟨f, hf, t, ht, hn⟩
    refine ⟨f, hf, ?_⟩
    rw [ht]
    exact hn

/-- Claim C8: monotonicity in scope: when every package of `scope1` is a package of
`scope2` and each file path is the origin of trees in at most one package of `scope2`,
the closure of a seed in `scope1` is included in its closure in `scope2`. -/
theorem closure_mono_scope (it : MapIter) (s : GoString) (scope1 scope2 : List Package)
    (hsub : ∀ pkg ∈ scope1, pkg ∈ scope2) (hwf : WellFormedScope scope2) (g : GoString)
    (hg : g ∈ findDependentFilesRecursively it s scope1) :
    g ∈ findDependentFilesRecursively it s scope2 := by
  rw [mem_closure_iff_reaches] at hg ⊢
  exact Relation.ReflTransGen.mono (fun _ _ h => dependsOn_mono it hsub hwf h) hg

/-- Claim C9: order invariance: when `scope'` rearranges `scope` and keeps the order
of the packages that contain the seed or a file of the closure of the seed in `scope`,
the closure of the seed in `scope'` has the same files as its closure in `scope`. -/
theorem closure_order_invariant (it : MapIter) (s : GoString) (scope scope' : List Package)
    (hperm : scope'.Perm scope)
    (hkeep : scope'.filter (containsFileOf (findDependentFilesRecursively it s scope))
      = scope.filter (containsFileOf (findDependentFilesRecursively it s scope)))
    (g : GoString) :
    g ∈ findDependentFilesRecursively it s scope' ↔
      g ∈ findDependentFilesRecursively it s scope :=
  closure_congr it s scope scope'
    (fun _ hf g => dependsOn_perm it _ hperm hkeep hf g) g

/-- Claim C10, as stated, fails: package `Q = {q.go}` has no tree of the seed `a.go`
and resolves no identifier to a symbol defined in `a.go`, yet extending the scope
`[P]` with `Q`, at the end or at the front, adds `q.go` to the closure of `a.go`. -/
theorem closure_extended_scope_counterexample :
    (∀ t ∈ exPkgQ.Syntax, exPkgQ.origin t ≠ utf8 "a.go") ∧
    (∀ n g, Resolves exPkgQ n g → g ≠ utf8 "a.go") ∧
    findDependentFilesRecursively MapIter.stored (utf8 "a.go") [exPkgP] = [utf8 "a.go"] ∧
    findDependentFilesRecursively MapIter.stored (utf8 "a.go") ([exPkgP] ++ [exPkgQ])
      = [utf8 "q.go", utf8 "a.go"] ∧
    findDependentFilesRecursively MapIter.stored (utf8 "a.go") (exPkgQ :: [exPkgP])
      = [utf8 "q.go", utf8 "a.go"] := by
  refine ⟨by decide, ?_, by decide, by decide, by decide⟩
  rintro n g ⟨obj, hobj, hg⟩
  by_cases hn : n = 301
  · subst hn
    cases hobj
    subst hg
    decide
  · simp [exPkgQ, hn] at hobj

/-- Claim C10, amended: a package `Q` that has no tree of the seed, resolves no
identifier to a symbol defined in the seed, resolves no identifier of a tree the closure
walks, and has no tree of a file that a package of the scope resolves such an identifier
to, can be inserted anywhere in the scope without changing the files of the closure. -/
theorem closure_unrelated_package (it : MapIter) (s : GoString) (l1 l2 : List Package)
    (Q : Package)
    (hseed : ∀ t ∈ Q.Syntax, Q.origin t ≠ s)
    (_hresolve : ∀ n g, Resolves Q n g → g ≠ s)
    (hids : ∀ n ∈ reachedIdents it s (l1 ++ l2), Q.TypesInfo.ObjectOf n = none)
    (hdefs : ∀ n ∈ reachedIdents it s (l1 ++ l2), ∀ p ∈ l1 ++ l2, ∀ g, Resolves p n g →
      ∀ t ∈ Q.Syntax, Q.origin t ≠ g)
    (g : GoString) :
    g ∈ findDependentFilesRecursively it s (l1 ++ Q :: l2) ↔
      g ∈ findDependentFilesRecursively it s (l1 ++ l2) := by
  have hmem : ∀ pkg, pkg ∈ l1 ++ Q :: l2 ↔ pkg = Q ∨ pkg ∈ l1 ++ l2 := by
    intro pkg
    simp only [List.mem_append, List.mem_cons]
    tauto
  -- files recorded for a walked tree are not files of `Q`
  have hrecQ : ∀ f ∈ findDependentFilesRecursively it s (l1 ++ l2), ∀ t,
      getFile f (l1 ++ l2) = some t → ∀ h ∈ recordedFiles t (l1 ++ l2),
        ∀ t' ∈ Q.Syntax, Q.origin t' ≠ h := by
    intro f hf t ht h hh
    obtain ⟨n, hn, p, hp, hres⟩ := mem_recordedFiles.1 hh
    exact hdefs n (mem_reachedIdents.2 ⟨f, hf, t, ht, hn⟩) p hp h hres
  -- no file of the closure is a file of `Q`
  have hclQ : ∀ f ∈ findDependentFilesRecursively it s (l1 ++ l2),
      ∀ t' ∈ Q.Syntax, Q.origin t' ≠ f := by
    intro f hf
    rcases Relation.ReflTransGen.cases_tail ((mem_closure_iff_reaches it _ s f).1 hf) with
      h | ⟨c, hc, hstep⟩
    · rw [h]
      exact hseed
    · obtain ⟨t, ht, hrec, _⟩ := dependsOn_iff.1 hstep
      exact hrecQ c ((mem_closure_iff_reaches it _ s c).2 hc) t ht f hrec
  apply closure_congr it s (l1 ++ l2) (l1 ++ Q :: l2)
  intro f hf h
  have hget : getFile f (l1 ++ Q :: l2) = getFile f (l1 ++ l2) :=
    getFile_insert f l1 l2 Q (hclQ f hf)
  simp only [dependsOn_iff, hget]
  constructor
  · rintro ⟨t, ht, hrec, hin⟩
    refine ⟨t, ht, ?_, ?_⟩
    · obtain ⟨n, hn, p, hp, hres⟩ := mem_recordedFiles.1 hrec
      exact mem_recordedFiles.2 ⟨n, hn, p, (hmem p).2 (Or.inr hp), hres⟩
    · obtain ⟨p, hp, hfile⟩ := mem_inScopeFiles.1 hin
      exact mem_inScopeFiles.2 ⟨p, (hmem p).2 (Or.inr hp), hfile⟩
  · rintro ⟨t, ht, hrec, hin⟩
    have hrec' : h ∈ recordedFiles t (l1 ++ l2) := by
      obtain ⟨n, hn, p, hp, hres⟩ := mem_recordedFiles.1 hrec
      rcases (hmem p).1 hp with rfl | hp
      · obtain ⟨obj, hobj, _⟩ := hres
        rw [hids n (mem_reachedIdents.2 ⟨f, hf, t, ht, hn⟩)] at hobj
        cases hobj
      · exact mem_recordedFiles.2 ⟨n, hn, p, hp, hres⟩
    refine ⟨t, ht, hrec', ?_⟩
    obtain ⟨p, hp, t', ht', ho⟩ := mem_inScopeFiles.1 hin
    rcases (hmem p).1 hp with rfl | hp
    · exact absurd ho (hrecQ f hf t ht h hrec' t' ht')
    · exact mem_inScopeFiles.2 ⟨p, hp, t', ht', ho⟩

/-! ## The properties at the example scopes -/

/-- Claim C2 at examples: the seed `c.go`, in no loaded package, is in its closure in
scope `[P]`; `Depf` on `a.go` succeeds and its list holds `a.go`. -/
theorem seed_mem_closure_witness :
    utf8 "c.go" ∈ findDependentFilesRecursively MapIter.stored (utf8 "c.go") [exPkgP] ∧
    Depf exEnv MapIter.stored (utf8 "a.go") [] = (some [utf8 "a.go", utf8 "q.go"], none) ∧
    ∃ absFile, exEnv.Abs (utf8 "a.go") = .ok absFile ∧
      absFile ∈ [utf8 "a.go", utf8 "q.go"] :=
  ⟨(seed_mem_closure MapIter.stored).1 (utf8 "c.go") [exPkgP], by decide,
    (seed_mem_closure MapIter.stored).2 exEnv (utf8 "a.go") []
      [utf8 "a.go", utf8 "q.go"] (by decide)⟩

/-- Claim C3 at an example: `Depf` on `a.go` with the loader returning `P` and `Q`
returns `a.go`, `q.go`, strictly ascending, the keys of the closure map. -/
theorem Depf_strictly_ascending_witness :
    Depf exEnv MapIter.reversed (utf8 "a.go") [] = (some [utf8 "a.go", utf8 "q.go"], none) ∧
    ([utf8 "a.go", utf8 "q.go"].Pairwise (fun a b => stringLess a b = true) ∧
      ∃ absFile pkgs, exEnv.Abs (utf8 "a.go") = .ok absFile ∧
        loadPackages exEnv absFile [] = .ok pkgs ∧
        ∀ g, g ∈ [utf8 "a.go", utf8 "q.go"] ↔
          g ∈ findDependentFilesRecursively MapIter.reversed absFile pkgs) :=
  ⟨by decide,
    Depf_strictly_ascending exEnv MapIter.reversed (utf8 "a.go") []
      [utf8 "a.go", utf8 "q.go"] (by decide)⟩

/-- Claim C4 at an example: in scope `[P, Q]` the file `a.go` of the closure of `a.go`
has the tree `exTreeA`, for which `findDependentFiles` returns `q.go`; so `q.go` is in
the closure. -/
theorem closure_closed_witness :
    utf8 "a.go" ∈ findDependentFilesRecursively MapIter.stored (utf8 "a.go") [exPkgP, exPkgQ] ∧
    getFile (utf8 "a.go") [exPkgP, exPkgQ] = some exTreeA ∧
    utf8 "q.go" ∈ findDependentFiles MapIter.stored exTreeA [exPkgP, exPkgQ] ∧
    utf8 "q.go" ∈ findDependentFilesRecursively MapIter.stored (utf8 "a.go") [exPkgP, exPkgQ] :=
  ⟨by decide, rfl, by decide,
    closure_closed MapIter.stored (utf8 "a.go") [exPkgP, exPkgQ] (utf8 "a.go") exTreeA
      (utf8 "q.go") (by decide) rfl (by decide)⟩

/-- Claim C5 at the scenario of an out-of-scope dependency: `P = {a.go}`, identifier
101 of `a.go` resolves to a symbol of `q.go`, which no package of the scope `[P]`
holds; the closure of `a.go` is `a.go` alone and `q.go` is not in it. -/
theorem closure_in_scope_witness :
    Resolves exPkgP 101 (utf8 "q.go") ∧
    findDependentFilesRecursively MapIter.stored (utf8 "a.go") [exPkgP] = [utf8 "a.go"] ∧
    utf8 "q.go" ∉ findDependentFilesRecursively MapIter.stored (utf8 "a.go") [exPkgP] :=
  ⟨⟨⟨31⟩, rfl, by decide⟩, by decide,
    (closure_in_scope MapIter.stored (utf8 "a.go") [exPkgP]).2 101 exPkgP (utf8 "q.go")
      (List.mem_singleton_self _) ⟨⟨31⟩, rfl, by decide⟩ (by decide) (by decide)⟩

theorem wellFormedScope_example : WellFormedScope [exPkgP, exPkgQ] := by
  intro p hp q hq f hf f' hf' h
  simp only [List.mem_cons, List.mem_singleton, List.not_mem_nil, or_false] at hp hq
  rcases hp with rfl | rfl <;> rcases hq with rfl | rfl
  · rfl
  · exfalso
    simp only [exPkgP, exPkgQ, List.mem_singleton] at hf hf'
    subst hf hf'
    revert h
    decide
  · exfalso
    simp only [exPkgP, exPkgQ, List.mem_singleton] at hf hf'
    subst hf hf'
    revert h
    decide
  · rfl

theorem subscope_example : ∀ pkg ∈ [exPkgP], pkg ∈ [exPkgP, exPkgQ] := by
  intro pkg hpkg
  rw [List.mem_singleton.1 hpkg]
  exact List.mem_cons_self _ _

/-- Claim C8 at an example: scope `[P]` is included in the well-formed scope `[P, Q]`,
and the file `a.go` of the closure of `a.go` in `[P]` is in its closure in `[P, Q]`. -/
theorem closure_mono_scope_witness :
    (∀ pkg ∈ [exPkgP], pkg ∈ [exPkgP, exPkgQ]) ∧ WellFormedScope [exPkgP, exPkgQ] ∧
    utf8 "a.go" ∈ findDependentFilesRecursively MapIter.stored (utf8 "a.go") [exPkgP] ∧
    utf8 "a.go" ∈ findDependentFilesRecursively MapIter.stored (utf8 "a.go") [exPkgP, exPkgQ] :=
  ⟨subscope_example, wellFormedScope_example, by decide,
    closure_mono_scope MapIter.stored (utf8 "a.go") [exPkgP] [exPkgP, exPkgQ]
      subscope_example wellFormedScope_example (utf8 "a.go") (by decide)⟩

/-- Claim C9 at an example: the closure of `q.go` in `[P, Q]` is `q.go` alone, package
`P` holds no file of it, and moving `P` behind `Q` leaves the closure unchanged. -/
theorem closure_order_invariant_witness :
    findDependentFilesRecursively MapIter.stored (utf8 "q.go") [exPkgP, exPkgQ] = [utf8 "q.go"] ∧
    List.Perm [exPkgQ, exPkgP] [exPkgP, exPkgQ] ∧
    [exPkgQ, exPkgP].filter (containsFileOf [utf8 "q.go"])
      = [exPkgP, exPkgQ].filter (containsFileOf [utf8 "q.go"]) ∧
    (utf8 "q.go" ∈ findDependentFilesRecursively MapIter.stored (utf8 "q.go") [exPkgQ, exPkgP] ↔
      utf8 "q.go" ∈ findDependentFilesRecursively MapIter.stored (utf8 "q.go")
        [exPkgP, exPkgQ]) :=
  ⟨by decide, List.Perm.swap _ _ _, rfl,
    closure_order_invariant MapIter.stored (utf8 "q.go") [exPkgP, exPkgQ] [exPkgQ, exPkgP]
      (List.Perm.swap _ _ _) rfl (utf8 "q.go")⟩

theorem exPkgR_resolves_not_q : ∀ n g, Resolves exPkgR n g → g ≠ utf8 "q.go" := by
  rintro n g ⟨obj, hobj, hg⟩
  by_cases hn : n = 201
  · subst hn
    cases hobj
    subst hg
    decide
  · simp [exPkgR, hn] at hobj

theorem exPkgQ_defs_not_in_R :
    ∀ n ∈ reachedIdents MapIter.stored (utf8 "q.go") ([] ++ [exPkgQ]),
      ∀ p ∈ ([] : List Package) ++ [exPkgQ], ∀ g, Resolves p n g →
        ∀ t ∈ exPkgR.Syntax, exPkgR.origin t ≠ g := by
  have hri : reachedIdents MapIter.stored (utf8 "q.go") ([] ++ [exPkgQ]) = [300, 301] := by
    decide
  rw [hri]
  rintro n hn p hp g ⟨obj, hobj, hg⟩
  simp only [List.nil_append, List.mem_singleton] at hp
  subst hp
  simp only [List.mem_cons, List.mem_singleton, List.not_mem_nil, or_false] at hn
  rcases hn with rfl | rfl
  · simp [exPkgQ] at hobj
  · cases hobj
    subst hg
    decide

/-- Claim C10, amended, at an example: package `R = {c.go}` is unrelated to the closure
of `q.go` in scope `[Q]`, and putting `R` in front of `Q` keeps `q.go` in the closure and
`c.go` out of it. -/
theorem closure_unrelated_package_witness :
    (∀ t ∈ exPkgR.Syntax, exPkgR.origin t ≠ utf8 "q.go") ∧
    (∀ n ∈ reachedIdents MapIter.stored (utf8 "q.go") ([] ++ [exPkgQ]),
      exPkgR.TypesInfo.ObjectOf n = none) ∧
    (utf8 "c.go" ∈ findDependentFilesRecursively MapIter.stored (utf8 "q.go")
        ([] ++ exPkgR :: [exPkgQ]) ↔
      utf8 "c.go" ∈ findDependentFilesRecursively MapIter.stored (utf8 "q.go")
        ([] ++ [exPkgQ])) :=
  ⟨by decide, by decide,
    closure_unrelated_package MapIter.stored (utf8 "q.go") [] [exPkgQ] exPkgR
      (by decide) exPkgR_resolves_not_q (by decide) exPkgQ_defs_not_in_R (utf8 "c.go")⟩


/-! ## Order independence, cycles and disconnected seeds -/

theorem eq_singleton_of_nodup {l : List GoString} {s : GoString} (hl : l.Nodup)
    (h : ∀ g, g ∈ l ↔ g = s) : l = [s] := by
  cases l with
  | nil => exact absurd ((h s).2 rfl) (List.not_mem_nil s)
  | cons a l' =>
    have ha : a = s := (h a).1 (List.mem_cons_self _ _)
    subst ha
    cases l' with
    | nil => rfl
    | cons b l'' =>
      have hb : b = a := (h b).1 (List.mem_cons_of_mem _ (List.mem_cons_self _ _))
      subst hb
      exact absurd (List.mem_cons_self _ _) (List.nodup_cons.1 hl).1

/-- The file-depends-on relation is the same for every map enumeration order. -/
theorem dependsOn_iter (it1 it2 : MapIter) (pkgs : List Package) (f g : GoString) :
    DependsOn it1 pkgs f g ↔ DependsOn it2 pkgs f g := by
  rw [dependsOn_iff, dependsOn_iff]

theorem mem_closure_iter (it1 it2 : MapIter) (pkgs : List Package) (s g : GoString) :
    g ∈ findDependentFilesRecursively it1 s pkgs ↔
      g ∈ findDependentFilesRecursively it2 s pkgs := by
  rw [mem_closure_iff_reaches, mem_closure_iff_reaches]
  constructor
  · exact Relation.ReflTransGen.mono (fun a b h => (dependsOn_iter it1 it2 pkgs a b).1 h)
  · exact Relation.ReflTransGen.mono (fun a b h => (dependsOn_iter it1 it2 pkgs a b).2 h)

theorem notLess_antisymm {a b : GoString} (hab : stringLess b a = false)
    (hba : stringLess a b = false) : a = b := by
  by_contra hne
  rw [stringLess_of_ne hne hab] at hba
  cases hba

/-- The list `sortStrings` returns is the one sorted rearrangement of its argument. -/
theorem sortStrings_eq_of_perm {keys l : List GoString} (hperm : keys.Perm l)
    (hsorted : l.Pairwise (fun a b => stringLess b a = false)) : sortStrings keys = l := by
  have htotal : IsTotal GoString (fun a b => stringLess b a = false) := ⟨notLess_total⟩
  have htrans : IsTrans GoString (fun a b => stringLess b a = false) :=
    ⟨fun _ _ _ => notLess_trans⟩
  have hanti : IsAntisymm GoString (fun a b => stringLess b a = false) :=
    ⟨fun _ _ => notLess_antisymm⟩
  exact List.eq_of_perm_of_sorted ((sortStrings_perm keys).trans hperm)
    (List.sorted_insertionSort _ keys) hsorted

theorem sortStrings_congr {keys keys' : List GoString} (hperm : keys.Perm keys') :
    sortStrings keys = sortStrings keys' := by
  have htotal : IsTotal GoString (fun a b => stringLess b a = false) := ⟨notLess_total⟩
  have htrans : IsTrans GoString (fun a b => stringLess b a = false) :=
    ⟨fun _ _ _ => notLess_trans⟩
  exact sortStrings_eq_of_perm (hperm.trans (sortStrings_perm keys').symm)
    (List.sorted_insertionSort _ keys')

theorem sortMapKeys_closure_iter (itA itB itC itD : MapIter) (s : GoString)
    (pkgs : List Package) :
    sortMapKeys itA (findDependentFilesRecursively itB s pkgs)
      = sortMapKeys itC (findDependentFilesRecursively itD s pkgs) := by
  unfold sortMapKeys
  apply sortStrings_congr
  refine (itA.perm _).trans (List.Perm.trans ?_ (itC.perm _).symm)
  exact (List.perm_ext_iff_of_nodup (nodup_closure itB pkgs s) (nodup_closure itD pkgs s)).2
    (fun g => mem_closure_iter itB itD pkgs s g)

/-- Claim C11: cycle tolerance: in a scope of one package with exactly two files `A` and
`B`, listed in either order, where an identifier of the tree of `A` resolves to a symbol
defined in `B` and an identifier of the tree of `B` to a symbol defined in `A`, the queue
loop started from `A` leaves through its condition, the closure holds exactly `A` and `B`,
and the sorted output is the two paths in ascending order. -/
theorem closure_cycle (it : MapIter) (pkg : Package) (tA tB : AstFile)
    (hsyn : pkg.Syntax = [tA, tB] ∨ pkg.Syntax = [tB, tA])
    (hne : pkg.origin tA ≠ pkg.origin tB)
    (hAB : ∃ n ∈ tA.idents, Resolves pkg n (pkg.origin tB))
    (_hBA : ∃ n ∈ tB.idents, Resolves pkg n (pkg.origin tA)) :
    (∃ k, loopRun it [pkg] (iterationBound [pkg]) ⟨[], [pkg.origin tA]⟩
      = some (findDependentFilesRecursively it (pkg.origin tA) [pkg], k)) ∧
    (∀ g, g ∈ findDependentFilesRecursively it (pkg.origin tA) [pkg] ↔
      g = pkg.origin tA ∨ g = pkg.origin tB) ∧
    sortMapKeys it (findDependentFilesRecursively it (pkg.origin tA) [pkg])
      = if stringLess (pkg.origin tA) (pkg.origin tB) = true
        then [pkg.origin tA, pkg.origin tB] else [pkg.origin tB, pkg.origin tA] := by
  have hscope : ∀ g, g ∈ inScopeFiles [pkg] ↔ g = pkg.origin tA ∨ g = pkg.origin tB := by
    intro g
    rcases hsyn with h | h
    · simp [inScopeFiles, h, eq_comm]
    · simp [inScopeFiles, h, eq_comm, or_comm]
  have hgetA : getFile (pkg.origin tA) [pkg] = some tA := by
    rcases hsyn with h | h
    · simp [getFile, h, getFileIn]
    · simp [getFile, h, getFileIn, Ne.symm hne]
  have hmem : ∀ g, g ∈ findDependentFilesRecursively it (pkg.origin tA) [pkg] ↔
      g = pkg.origin tA ∨ g = pkg.origin tB := by
    intro g
    constructor
    · intro hg
      rcases (closure_inv it [pkg] (pkg.origin tA)).inScope g (Or.inl hg) with h | h
      · exact Or.inl h
      · exact (hscope g).1 (getFile_isSome_iff.1 h)
    · rintro (rfl | rfl)
      · exact (mem_closure_iff_reaches it _ _ _).2 Relation.ReflTransGen.refl
      · obtain ⟨n, hn, hres⟩ := hAB
        refine (mem_closure_iff_reaches it _ _ _).2
          (Relation.ReflTransGen.single (dependsOn_iff.2 ⟨tA, hgetA, ?_, ?_⟩))
        · exact mem_recordedFiles.2 ⟨n, hn, pkg, List.mem_singleton_self _, hres⟩
        · exact (hscope _).2 (Or.inr rfl)
  refine ⟨?_, hmem, ?_⟩
  · obtain ⟨k, hk, _⟩ := loopRun_iterationBound it [pkg] (pkg.origin tA)
    exact ⟨k, hk⟩
  · unfold sortMapKeys
    have hnodup := nodup_closure it [pkg] (pkg.origin tA)
    split
    · next hlt =>
      apply sortStrings_eq_of_perm
      · refine (it.perm _).trans ((List.perm_ext_iff_of_nodup hnodup ?_).2 ?_)
        · simpa using hne
        · intro g
          rw [hmem g]
          simp
      · simpa using stringLess_asymm hlt
    · next hlt =>
      apply sortStrings_eq_of_perm
      · refine (it.perm _).trans ((List.perm_ext_iff_of_nodup hnodup ?_).2 ?_)
        · simpa using hne.symm
        · intro g
          rw [hmem g]
          simp [or_comm]
      · simpa using hlt

/-- Claim C12: disconnected seed: when `getFile` gives no tree for the seed, or its tree
has no identifiers, or every identifier of its tree resolves to nothing, to a file without
a tree in the scope, or to the seed itself, the map the closure returns has the seed as its
only key. -/
theorem closure_disconnected (it : MapIter) (s : GoString) (pkgs : List Package)
    (h : getFile s pkgs = none ∨
      ∃ t, getFile s pkgs = some t ∧
        (t.idents = [] ∨
          ∀ n ∈ t.idents, ∀ pkg ∈ pkgs, ∀ g, Resolves pkg n g →
            getFile g pkgs = none ∨ g = s)) :
    findDependentFilesRecursively it s pkgs = [s] := by
  apply eq_singleton_of_nodup (nodup_closure it pkgs s)
  intro g
  rw [mem_closure_iff_reaches]
  constructor
  · intro hg
    induction hg with
    | refl => rfl
    | tail _ hstep ih =>
      subst ih
      obtain ⟨t, ht, hrec, hin⟩ := dependsOn_iff.1 hstep
      obtain ⟨n, hn, pkg, hpkg, hres⟩ := mem_recordedFiles.1 hrec
      rcases h with h | ⟨t', ht', h | h⟩
      · rw [h] at ht
        cases ht
      · rw [ht'] at ht
        cases ht
        rw [h] at hn
        cases hn
      · rw [ht'] at ht
        cases ht
        rcases h n hn pkg hpkg _ hres with hnone | heq
        · have := getFile_isSome_iff.2 hin
          rw [hnone] at this
          cases this
        · exact heq
  · rintro rfl
    exact Relation.ReflTransGen.refl

/-- Claim C13: determinism independent of traversal order: the list `Depf` returns, and
the sorted key list of the closure, are the same for every order in which `range`
enumerates the map of `findDependentFiles` and the map of `sortMapKeys`. -/
theorem Depf_order_independent (env : Env) (file : GoString) (packagePatterns : List GoString)
    (it1 it2 : MapIter) :
    Depf env it1 file packagePatterns = Depf env it2 file packagePatterns ∧
    ∀ (itA itB : MapIter) (s : GoString) (pkgs : List Package),
      sortMapKeys it1 (findDependentFilesRecursively itA s pkgs)
        = sortMapKeys it2 (findDependentFilesRecursively itB s pkgs) := by
  refine ⟨?_, fun itA itB s pkgs => sortMapKeys_closure_iter it1 itA it2 itB s pkgs⟩
  unfold Depf
  simp only [sortMapKeys_closure_iter it1 it1 it2 it2]

/-! ## Entry façade, lookup and extractor -/

theorem utf8_dotGo : utf8 ".go" = [46, 103, 111] := by decide

theorem getFile_eq_Lookup (file : GoString) (pkgs : List Package) :
    getFile file pkgs = Lookup file pkgs := by
  unfold Lookup scanOrder
  induction pkgs with
  | nil => rfl
  | cons p ps ih =>
    have hin : ∀ fs : List AstFile, getFileIn file p fs
        = ((fs.map (fun f => (p, f))).find? (fun pf => decide (pf.1.origin pf.2 = file))).map
            Prod.snd := by
      intro fs
      induction fs with
      | nil => rfl
      | cons f fs ihf =>
        unfold getFileIn
        by_cases h : p.origin f = file
        · simp [h]
        · simp only [h, if_false, List.map_cons, List.find?_cons, decide_False]
          exact ihf
    unfold getFile
    rw [List.flatMap_cons, List.find?_append, hin p.Syntax, ih]
    cases hf : List.find? (fun pf => decide (pf.1.origin pf.2 = file))
        (p.Syntax.map (fun f => (p, f))) with
    | none => simp
    | some pf => simp

theorem getFile_append_of_none (file : GoString) (l1 l2 : List Package)
    (h : ∀ q ∈ l1, ∀ f ∈ q.Syntax, q.origin f ≠ file) :
    getFile file (l1 ++ l2) = getFile file l2 := by
  induction l1 with
  | nil => rfl
  | cons q qs ih =>
    rw [List.cons_append, getFile, getFileIn_eq_none (h q (List.mem_cons_self _ _))]
    exact ih (fun q' hq' => h q' (List.mem_cons_of_mem _ hq'))

theorem Depf_of_validate_error {env : Env} (it : MapIter) {file : GoString}
    (packagePatterns : List GoString) {err : String} (hv : validateFile env file = some err) :
    Depf env it file packagePatterns = (none, some err) := by
  unfold Depf
  rw [hv]

theorem Depf_of_abs_error {env : Env} (it : MapIter) {file : GoString}
    (packagePatterns : List GoString) {err : String} (hv : validateFile env file = none)
    (ha : env.Abs file = .error err) :
    Depf env it file packagePatterns
      = (none, some ("could not get absolute path of file: " ++ err)) := by
  unfold Depf
  rw [hv]
  simp only [ha]

theorem Depf_of_load_error {env : Env} (it : MapIter) {file absFile : GoString}
    {packagePatterns : List GoString} {err : String} (hv : validateFile env file = none)
    (ha : env.Abs file = .ok absFile)
    (hl : loadPackages env absFile packagePatterns = .error err) :
    Depf env it file packagePatterns = (none, some ("could not load packages: " ++ err)) := by
  unfold Depf
  rw [hv]
  simp only [ha, hl]

theorem Depf_of_load_ok {env : Env} (it : MapIter) {file absFile : GoString}
    {packagePatterns : List GoString} {pkgs : List Package}
    (hv : validateFile env file = none) (ha : env.Abs file = .ok absFile)
    (hl : loadPackages env absFile packagePatterns = .ok pkgs) :
    Depf env it file packagePatterns
      = (some (sortMapKeys it (findDependentFilesRecursively it absFile pkgs)), none) := by
  unfold Depf
  rw [hv]
  simp only [ha, hl]

/-- Claim C14, as stated, fails on the message: for the seed `notes.txt`, whatever the
file system holds, `validateFile` fails with "file must be a .go file", not with
"file must be a source file", and `Depf` returns that error with no list. -/
theorem validateFile_message_counterexample :
    validateFile exEnv (utf8 "notes.txt") = some "file must be a .go file" ∧
    validateFile exEnv (utf8 "notes.txt") ≠ some "file must be a source file" ∧
    Depf exEnv MapIter.stored (utf8 "notes.txt") [] = (none, some "file must be a .go file") := by
  refine ⟨by decide, by decide, by decide⟩

/-- Claim C14, amended: a seed shorter than 3 bytes or whose last three bytes are not
`.go` makes `validateFile` fail with "file must be a .go file" for every state of the
file system, and `Depf` return that error with no list; a seed that ends in `.go` passes
the suffix check, the outcome being that of the `os.Stat` checks. -/
theorem validateFile_suffix (env : Env) (it : MapIter) (file : GoString)
    (packagePatterns : List GoString) :
    (file.length < 3 ∨ file.drop (file.length - 3) ≠ utf8 ".go" →
      validateFile env file = some "file must be a .go file" ∧
      Depf env it file packagePatterns = (none, some "file must be a .go file")) ∧
    (∀ stem : GoString, file = stem ++ utf8 ".go" →
      3 ≤ file.length ∧
      validateFile env file =
        match env.Stat file with
        | .error err => some ("could not access file: " ++ err)
        | .ok info => if info.IsDir then some "file must not be a directory" else none) := by
  constructor
  · intro h
    have hv : validateFile env file = some "file must be a .go file" := by
      unfold validateFile
      rw [if_pos h]
    refine ⟨hv, ?_⟩
    unfold Depf
    rw [hv]
  · intro stem hstem
    have hlen : file.length = stem.length + 3 := by
      rw [hstem, List.length_append, utf8_dotGo]
      rfl
    have hdrop : file.drop (file.length - 3) = utf8 ".go" := by
      rw [hlen, Nat.add_sub_cancel, hstem, List.drop_left]
    have hneg : ¬ (file.length < 3 ∨ file.drop (file.length - 3) ≠ utf8 ".go") := by
      rintro (h | h)
      · omega
      · exact h hdrop
    refine ⟨by omega, ?_⟩
    unfold validateFile
    exact if_neg hneg

/-- Claim C15: `Depf` returns an error exactly when seed validation, path
canonicalization or the scope loader fails, the list being `nil` then; when all three
succeed it returns the sorted keys of the closure and a `nil` error. -/
theorem Depf_error_iff (env : Env) (it : MapIter) (file : GoString)
    (packagePatterns : List GoString) :
    ((Depf env it file packagePatterns).2 ≠ none ↔
      validateFile env file ≠ none ∨ (∃ err, env.Abs file = .error err) ∨
        ∃ absFile err, env.Abs file = .ok absFile ∧
          loadPackages env absFile packagePatterns = .error err) ∧
    ((Depf env it file packagePatterns).2 ≠ none →
      (Depf env it file packagePatterns).1 = none) ∧
    (∀ absFile pkgs, validateFile env file = none → env.Abs file = .ok absFile →
      loadPackages env absFile packagePatterns = .ok pkgs →
      Depf env it file packagePatterns
        = (some (sortMapKeys it (findDependentFilesRecursively it absFile pkgs)), none)) := by
  cases hv : validateFile env file with
  | some err =>
    rw [Depf_of_validate_error it packagePatterns hv]
    simp
  | none =>
    cases ha : env.Abs file with
    | error err =>
      rw [Depf_of_abs_error it packagePatterns hv ha]
      simp
    | ok absFile =>
      cases hl : loadPackages env absFile packagePatterns with
      | error err =>
        rw [Depf_of_load_error it hv ha hl]
        refine ⟨?_, ?_, ?_⟩
        · simp only [ne_eq, reduceCtorEq, not_false_eq_true, true_iff]
          exact Or.inr (Or.inr ⟨absFile, err, rfl, hl⟩)
        · intro _
          rfl
        · intro a pkgs _ h hl'
          cases h
          rw [hl] at hl'
          cases hl'
      | ok pkgs =>
        rw [Depf_of_load_ok it hv ha hl]
        refine ⟨?_, ?_, ?_⟩
        · constructor
          · intro h
            exact absurd rfl h
          · rintro (h | ⟨err, h⟩ | ⟨a, err, h, hl'⟩)
            · exact absurd rfl h
            · cases h
            · cases h
              rw [hl] at hl'
              cases hl'
        · intro h
          exact absurd rfl h
        · intro a pkgs' _ h hl'
          cases h
          rw [hl] at hl'
          cases hl'
          rfl

/-- Claim C16: default scope: with no package patterns `loadPackages` hands the loader
the one selector `filepath.Dir(file)`, otherwise the given selectors unchanged and in
order; in both cases the loader's working directory is `filepath.Dir(file)`, and `Depf`
calls it on the canonical seed. -/
theorem loadPackages_default_scope (env : Env) (file : GoString)
    (packagePatterns : List GoString) :
    (packagePatterns = [] →
      loadPackages env file packagePatterns
        = env.Load ⟨[LoadMode.NeedName, LoadMode.NeedSyntax, LoadMode.NeedDeps,
            LoadMode.NeedTypes, LoadMode.NeedTypesInfo], env.Dir file⟩ [env.Dir file]) ∧
    (packagePatterns ≠ [] →
      loadPackages env file packagePatterns
        = env.Load ⟨[LoadMode.NeedName, LoadMode.NeedSyntax, LoadMode.NeedDeps,
            LoadMode.NeedTypes, LoadMode.NeedTypesInfo], env.Dir file⟩ packagePatterns) ∧
    (∀ (it : MapIter) (seed absFile : GoString) (err : String),
      validateFile env seed = none → env.Abs seed = .ok absFile →
      env.Load ⟨[LoadMode.NeedName, LoadMode.NeedSyntax, LoadMode.NeedDeps,
            LoadMode.NeedTypes, LoadMode.NeedTypesInfo], env.Dir absFile⟩
          (if packagePatterns = [] then [env.Dir absFile] else packagePatterns)
        = .error err →
      Depf env it seed packagePatterns = (none, some ("could not load packages: " ++ err))) := by
  refine ⟨?_, ?_, ?_⟩
  · intro h
    subst h
    rfl
  · intro h
    cases packagePatterns with
    | nil => exact absurd rfl h
    | cons p ps => rfl
  · intro it seed absFile err hv ha hload
    have hl : loadPackages env absFile packagePatterns = .error err := by
      rw [← hload]
      cases packagePatterns with
      | nil => rfl
      | cons p ps => rfl
    exact Depf_of_load_error it hv ha hl

/-- Claim C17, as stated, fails: in scope `[P, L]` the first package `P` resolves
identifier 101 of the tree of `a.go` (to `q.go`), the later package `L` resolves the same
identifier to `c.go`, no other identifier of the tree is resolved to `c.go`, and yet
`findDependentFiles` records `c.go` and returns it. -/
theorem findDependentFiles_first_only_counterexample :
    Resolves exPkgP 101 (utf8 "q.go") ∧ Resolves exPkgL 101 (utf8 "c.go") ∧
    (∀ n ∈ exTreeA.idents, ∀ pkg ∈ [exPkgP, exPkgL],
      (pkg.TypesInfo.ObjectOf n).map (fun obj => (pkg.Fset.Position obj.Pos).Filename)
        = some (utf8 "c.go") → n = 101) ∧
    recordedFiles exTreeA [exPkgP, exPkgL] = [[], utf8 "c.go", utf8 "q.go"] ∧
    findDependentFiles MapIter.stored exTreeA [exPkgP, exPkgL] = [utf8 "c.go"] :=
  ⟨⟨⟨31⟩, rfl, by decide⟩, ⟨⟨21⟩, rfl, by decide⟩, by decide, by decide, by decide⟩

/-- Claim C17, amended: `findDependentFiles` consults every package for each identifier
and records the defining file given by every package whose table resolves it; the files
it returns are the recorded files that have a tree in the scope. -/
theorem findDependentFiles_every_package (it : MapIter) (t : AstFile) (pkgs : List Package)
    (g : GoString) :
    (g ∈ recordedFiles t pkgs ↔ ∃ n ∈ t.idents, ∃ pkg ∈ pkgs, Resolves pkg n g) ∧
    (g ∈ findDependentFiles it t pkgs ↔
      (∃ n ∈ t.idents, ∃ pkg ∈ pkgs, Resolves pkg n g) ∧ getFile g pkgs ≠ none) := by
  refine ⟨mem_recordedFiles, ?_⟩
  rw [mem_findDependentFiles, mem_recordedFiles, ← Option.isSome_iff_ne_none]

/-- Claim C18: lookup is first-wins: `getFile` returns the first tree, in the scan order
of the packages and of the trees within each package, whose origin equals the path; it
returns `nil` exactly when no tree of any package has that origin; and a tree of an
earlier package wins over the trees of later packages. -/
theorem getFile_first_wins (file : GoString) (pkgs : List Package) :
    getFile file pkgs = Lookup file pkgs ∧
    (getFile file pkgs = none ↔ ∀ pkg ∈ pkgs, ∀ f ∈ pkg.Syntax, pkg.origin f ≠ file) ∧
    (∀ (l1 l2 : List Package) (p : Package) (f : AstFile), pkgs = l1 ++ p :: l2 →
      (∀ q ∈ l1, ∀ f' ∈ q.Syntax, q.origin f' ≠ file) →
      getFileIn file p p.Syntax = some f → getFile file pkgs = some f) := by
  refine ⟨getFile_eq_Lookup file pkgs, ⟨getFile_none, ?_⟩, ?_⟩
  · intro h
    cases hg : getFile file pkgs with
    | none => rfl
    | some f =>
      obtain ⟨pkg, hpkg, hf, ho⟩ := getFile_some hg
      exact absurd ho (h pkg hpkg f hf)
  · intro l1 l2 p f hpk hnone hin
    subst hpk
    rw [getFile_append_of_none file l1 (p :: l2) hnone]
    unfold getFile
    rw [hin]

/-- Claim C19: in-scope filter of the extractor: the list `findDependentFiles` returns has
no duplicates, `getFile` gives a tree for each of its elements, and it holds every file
that a package resolves an identifier of the tree to and for which `getFile` gives a
tree. -/
theorem findDependentFiles_in_scope (it : MapIter) (t : AstFile) (pkgs : List Package) :
    (findDependentFiles it t pkgs).Nodup ∧
    (∀ p ∈ findDependentFiles it t pkgs, getFile p pkgs ≠ none) ∧
    (∀ n ∈ t.idents, ∀ pkg ∈ pkgs, ∀ p, Resolves pkg n p → getFile p pkgs ≠ none →
      p ∈ findDependentFiles it t pkgs) := by
  refine ⟨nodup_findDependentFiles it t pkgs, ?_, ?_⟩
  · intro p hp
    exact Option.isSome_iff_ne_none.1 (mem_findDependentFiles.1 hp).2
  · intro n hn pkg hpkg p hres hsome
    exact mem_findDependentFiles.2
      ⟨mem_recordedFiles.2 ⟨n, hn, pkg, hpkg, hres⟩, Option.isSome_iff_ne_none.2 hsome⟩

/-! ## Number of iterations -/

theorem two_mul_triangle (m : Nat) : 2 * triangle m + m = m * m := by
  induction m with
  | zero => rfl
  | succ m ih =>
    simp only [triangle]
    nlinarith

theorem length_filter_not_mem (l d : List GoString) (hl : l.Nodup) (hd : d.Nodup)
    (hsub : ∀ x ∈ d, x ∈ l) :
    (l.filter (fun f => decide (f ∉ d))).length = l.length - d.length := by
  have hsplit := List.length_eq_countP_add_countP (fun f => decide (f ∉ d)) l
  have hin : (l.filter (fun f => decide (f ∈ d))).Perm d := by
    apply (List.perm_ext_iff_of_nodup (hl.filter _) hd).2
    intro x
    simp only [List.mem_filter, decide_eq_true_eq]
    exact ⟨fun h => h.2, fun h => ⟨hsub x h, h⟩⟩
  have hcount : List.countP (fun a => decide ¬(decide (a ∉ d)) = true) l = d.length := by
    rw [List.countP_eq_length_filter, ← hin.length_eq]
    congr 2
    funext a
    simp
  rw [List.countP_eq_length_filter] at hsplit
  omega

theorem mapSet_of_not_mem {m : List GoString} {k : GoString} (h : k ∉ m) :
    mapSet m k = k :: m := by
  unfold mapSet
  rw [if_neg h]

theorem length_le_inScopeCount (pkgs : List Package) (d : List GoString) (hd : d.Nodup)
    (hsub : ∀ f ∈ d, f ∈ inScopeFiles pkgs) : d.length ≤ inScopeCount pkgs := by
  apply List.Subperm.length_le
  apply List.subperm_of_subset hd
  intro f hf
  exact List.mem_dedup.2 (hsub f hf)

theorem complete_pushes (it : MapIter) (pkgs : List Package) (hc : CompleteScope it pkgs)
    (f : GoString) (t : AstFile) (ht : getFile f pkgs = some t) (d : List GoString)
    (hd : d.Nodup) (hsub : ∀ x ∈ d, x ∈ inScopeFiles pkgs) :
    ((findDependentFiles it t pkgs).filter (fun g => decide (g ∉ d))).length
      = inScopeCount pkgs - d.length := by
  have hperm : (findDependentFiles it t pkgs).Perm (inScopeFiles pkgs).dedup := by
    apply (List.perm_ext_iff_of_nodup (nodup_findDependentFiles it t pkgs)
      (List.nodup_dedup _)).2
    intro g
    rw [List.mem_dedup]
    exact ⟨fun h => getFile_isSome_iff.1 (mem_findDependentFiles.1 h).2, hc f t ht g⟩
  rw [length_filter_not_mem _ d (nodup_findDependentFiles it t pkgs) hd
    (fun x hx => hperm.mem_iff.2 (List.mem_dedup.2 (hsub x hx))), hperm.length_eq]
  rfl

theorem cliqueInv_done (pkgs : List Package) (d : List GoString)
    (hinv : CliqueInv pkgs ⟨d, []⟩) : inScopeCount pkgs - d.length = 0 := by
  have hle : inScopeCount pkgs ≤ d.length := by
    apply List.Subperm.length_le
    apply List.subperm_of_subset (List.nodup_dedup _)
    intro f hf
    rcases hinv.covered f (List.mem_dedup.1 hf) with h | h
    · exact h
    · cases h
  omega

/-- On a complete scope the number of iterations left is the queue length plus one push
for every pair of files still to be visited. -/
theorem complete_iterations (it : MapIter) (pkgs : List Package) (hc : CompleteScope it pkgs)
    (fuel : Nat) (st : LoopState) (m : List GoString) (k : Nat)
    (hinv : CliqueInv pkgs st) (hrun : loopRun it pkgs fuel st = some (m, k)) :
    k = st.queue.length + triangle (inScopeCount pkgs - st.dependentFiles.length) := by
  induction fuel generalizing st m k with
  | zero =>
    obtain ⟨d, q⟩ := st
    cases q with
    | nil =>
      simp only [loopRun, Option.some.injEq, Prod.mk.injEq] at hrun
      rw [← hrun.2, cliqueInv_done pkgs d hinv]
      rfl
    | cons a q => simp [loopRun] at hrun
  | succ n ih =>
    obtain ⟨d, q⟩ := st
    cases q with
    | nil =>
      simp only [loopRun, Option.some.injEq, Prod.mk.injEq] at hrun
      rw [← hrun.2, cliqueInv_done pkgs d hinv]
      rfl
    | cons a q =>
      simp only [loopRun, Option.map_eq_some', Prod.mk.injEq] at hrun
      obtain ⟨⟨m', k'⟩, hr', -, hk⟩ := hrun
      obtain ⟨hnodup, hvis, hq, hcov⟩ := hinv
      simp only at hnodup hvis hq hcov hk
      subst hk
      have ha : a ∈ inScopeFiles pkgs := hq a (List.mem_cons_self _ _)
      by_cases had : a ∈ d
      · have hbody : loopBody it pkgs a q d = ⟨d, q⟩ := by
          unfold loopBody
          rw [if_pos had]
        rw [hbody] at hr'
        have := ih ⟨d, q⟩ m' k' ⟨hnodup, hvis, fun f hf => hq f (List.mem_cons_of_mem _ hf),
          fun f hf => by
            rcases hcov f hf with h | h
            · exact Or.inl h
            · rcases List.mem_cons.1 h with rfl | h
              · exact Or.inl had
              · exact Or.inr h⟩ hr'
        simp only [List.length_cons] at this ⊢
        omega
      · obtain ⟨t, ht⟩ := Option.isSome_iff_exists.1 (getFile_isSome_iff.2 ha)
        have hbody : loopBody it pkgs a q d
            = ⟨a :: d, q ++ (findDependentFiles it t pkgs).filter
                (fun f => decide (f ∉ a :: d))⟩ := by
          unfold loopBody
          rw [if_neg had]
          simp only [ht, mapSet_of_not_mem had]
        rw [hbody] at hr'
        have hnodup' : (a :: d).Nodup := List.nodup_cons.2 ⟨had, hnodup⟩
        have hvis' : ∀ f ∈ a :: d, f ∈ inScopeFiles pkgs := by
          intro f hf
          rcases List.mem_cons.1 hf with rfl | hf
          · exact ha
          · exact hvis f hf
        have hpush := complete_pushes it pkgs hc a t ht (a :: d) hnodup' hvis'
        have hlen := length_le_inScopeCount pkgs (a :: d) hnodup' hvis'
        have := ih ⟨a :: d, q ++ (findDependentFiles it t pkgs).filter
            (fun f => decide (f ∉ a :: d))⟩ m' k'
          ⟨hnodup', hvis', fun f hf => by
              rcases List.mem_append.1 hf with h | h
              · exact hq f (List.mem_cons_of_mem _ h)
              · exact getFile_isSome_iff.1 (mem_findDependentFiles.1 (List.mem_filter.1 h).1).2,
            fun f hf => by
              by_cases hfd : f ∈ a :: d
              · exact Or.inl hfd
              · exact Or.inr (List.mem_append.2 (Or.inr
                  (List.mem_filter.2 ⟨hc a t ht f hf, by simpa using hfd⟩)))⟩ hr'
        simp only [List.length_cons, List.length_append, hpush] at this hlen ⊢
        obtain ⟨r, hr⟩ : ∃ r, inScopeCount pkgs - d.length = r + 1 :=
          ⟨inScopeCount pkgs - d.length - 1, by omega⟩
        have hr2 : inScopeCount pkgs - (d.length + 1) = r := by omega
        rw [hr, triangle]
        rw [hr2] at this
        omega

/-- On a complete scope the queue loop started from an in-scope seed runs for
`1 + n * (n - 1) / 2` iterations, `n` the number of in-scope files. -/
theorem complete_iterations_seed (it : MapIter) (pkgs : List Package)
    (hc : CompleteScope it pkgs) (s : GoString) (hs : s ∈ inScopeFiles pkgs)
    (fuel : Nat) (m : List GoString) (k : Nat)
    (hrun : loopRun it pkgs fuel ⟨[], [s]⟩ = some (m, k)) :
    k = 1 + triangle (inScopeCount pkgs) := by
  cases fuel with
  | zero => simp [loopRun] at hrun
  | succ n =>
    simp only [loopRun, Option.map_eq_some', Prod.mk.injEq] at hrun
    obtain ⟨⟨m', k'⟩, hr', -, hk⟩ := hrun
    simp only at hk
    subst hk
    obtain ⟨t, ht⟩ := Option.isSome_iff_exists.1 (getFile_isSome_iff.2 hs)
    have hbody : loopBody it pkgs s [] []
        = ⟨[s], [] ++ (findDependentFiles it t pkgs).filter
            (fun f => decide (f ∉ [s]))⟩ := by
      unfold loopBody
      rw [if_neg (List.not_mem_nil s)]
      simp only [ht, mapSet_of_not_mem (List.not_mem_nil s)]
    rw [hbody] at hr'
    have hnodup' : ([s] : List GoString).Nodup := List.nodup_singleton s
    have hvis' : ∀ f ∈ [s], f ∈ inScopeFiles pkgs := by
      intro f hf
      rw [List.mem_singleton.1 hf]
      exact hs
    have hpush := complete_pushes it pkgs hc s t ht [s] hnodup' hvis'
    have hlen := length_le_inScopeCount pkgs [s] hnodup' hvis'
    have := complete_iterations it pkgs hc n _ m' k'
      ⟨hnodup', hvis', fun f hf => by
          rcases List.mem_append.1 hf with h | h
          · cases h
          · exact getFile_isSome_iff.1 (mem_findDependentFiles.1 (List.mem_filter.1 h).1).2,
        fun f hf => by
          by_cases hfd : f ∈ [s]
          · exact Or.inl hfd
          · exact Or.inr (List.mem_append.2 (Or.inr
              (List.mem_filter.2 ⟨hc s t ht f hf, by simpa using hfd⟩)))⟩ hr'
    simp only [List.length_cons, List.length_append, List.length_nil, hpush] at this hlen ⊢
    obtain ⟨r, hr⟩ : ∃ r, inScopeCount pkgs = r + 1 := ⟨inScopeCount pkgs - 1, by omega⟩
    rw [hr, triangle]
    rw [hr] at this
    simp only [Nat.add_sub_cancel] at this
    omega

/-! ### Quadratic bound on the iterations -/

theorem filter_not_mem_mapSet_le (f : GoString) (d l : List GoString) :
    (l.filter (fun x => decide (x ∉ mapSet d f))).length
      ≤ (l.filter (fun x => decide (x ∉ d))).length := by
  rw [← List.countP_eq_length_filter, ← List.countP_eq_length_filter]
  apply List.countP_mono_left
  intro x _ hx
  simp only [decide_eq_true_eq] at hx ⊢
  exact fun h => hx (mem_mapSet.2 (Or.inr h))

theorem loopBody_potentialDistinct (it : MapIter) (pkgs : List Package) (file : GoString)
    (queue dependentFiles : List GoString) :
    potentialDistinct pkgs (loopBody it pkgs file queue dependentFiles)
      < potentialDistinct pkgs ⟨dependentFiles, file :: queue⟩ := by
  unfold loopBody potentialDistinct
  split
  · simp
  · next hvis =>
    split
    · next hnone =>
      have hle := filter_not_mem_mapSet_le file dependentFiles (inScopeFiles pkgs).dedup
      have := Nat.mul_le_mul_right (inScopeCount pkgs) hle
      simp only [List.length_cons]
      omega
    · next astFile hsome =>
      have hin : file ∈ (inScopeFiles pkgs).dedup :=
        List.mem_dedup.2 (getFile_isSome_iff.1 (by rw [hsome]; rfl))
      have hlt := filter_not_mem_mapSet_lt file dependentFiles _ hin hvis
      have hmul := Nat.mul_le_mul_right (inScopeCount pkgs) hlt
      have hpush : ((findDependentFiles it astFile pkgs).filter
          (fun f => decide (f ∉ mapSet dependentFiles file))).length ≤ inScopeCount pkgs :=
        length_le_inScopeCount pkgs _ ((nodup_findDependentFiles it astFile pkgs).filter _)
          (fun f hf => getFile_isSome_iff.1
            (mem_findDependentFiles.1 (List.mem_filter.1 hf).1).2)
      rw [Nat.succ_mul] at hmul
      simp only [List.length_cons, List.length_append]
      omega

theorem loopRun_iterations_le (it : MapIter) (pkgs : List Package) (fuel : Nat)
    (st : LoopState) (m : List GoString) (k : Nat)
    (hrun : loopRun it pkgs fuel st = some (m, k)) : k ≤ potentialDistinct pkgs st := by
  induction fuel generalizing st m k with
  | zero =>
    obtain ⟨d, q⟩ := st
    cases q with
    | nil =>
      simp only [loopRun, Option.some.injEq, Prod.mk.injEq] at hrun
      omega
    | cons a q => simp [loopRun] at hrun
  | succ n ih =>
    obtain ⟨d, q⟩ := st
    cases q with
    | nil =>
      simp only [loopRun, Option.some.injEq, Prod.mk.injEq] at hrun
      omega
    | cons a q =>
      simp only [loopRun, Option.map_eq_some', Prod.mk.injEq] at hrun
      obtain ⟨⟨m', k'⟩, hr', -, hk⟩ := hrun
      simp only at hk
      have := ih _ m' k' hr'
      have := loopBody_potentialDistinct it pkgs a q d
      omega

theorem potentialDistinct_init (pkgs : List Package) (s : GoString) :
    potentialDistinct pkgs ⟨[], [s]⟩ = inScopeCount pkgs * inScopeCount pkgs + 1 := by
  simp [potentialDistinct, inScopeCount, Nat.add_comm]

/-- Claim C20, amended: the number of iterations of the queue loop (skipping ones
included) is at most `n * n + 1`, `n` the number of in-scope files; an iteration leaves
the map unchanged when the file is already a key and adds the file as a new key
otherwise, and the returned map has at most `n + 1` keys, none twice. -/
theorem quadratic_iteration_bound (it : MapIter) (s : GoString) (pkgs : List Package) :
    (∃ k, loopRun it pkgs (iterationBound pkgs) ⟨[], [s]⟩
        = some (findDependentFilesRecursively it s pkgs, k) ∧
      k ≤ inScopeCount pkgs * inScopeCount pkgs + 1) ∧
    (∀ (file : GoString) (queue d : List GoString),
      (file ∈ d → (loopBody it pkgs file queue d).dependentFiles = d) ∧
      (file ∉ d → (loopBody it pkgs file queue d).dependentFiles = file :: d)) ∧
    (findDependentFilesRecursively it s pkgs).Nodup ∧
    (findDependentFilesRecursively it s pkgs).length ≤ inScopeCount pkgs + 1 := by
  refine ⟨?_, ?_, nodup_closure it pkgs s, ?_⟩
  · obtain ⟨k, hk, _⟩ := loopRun_iterationBound it pkgs s
    refine ⟨k, hk, ?_⟩
    rw [← potentialDistinct_init pkgs s]
    exact loopRun_iterations_le it pkgs _ _ _ k hk
  · intro file queue d
    unfold loopBody
    constructor
    · intro h
      rw [if_pos h]
    · intro h
      rw [if_neg h]
      cases getFile file pkgs with
      | none => exact mapSet_of_not_mem h
      | some t => exact mapSet_of_not_mem h
  · have hsub : ∀ f ∈ (findDependentFilesRecursively it s pkgs).erase s,
        f ∈ inScopeFiles pkgs := by
      intro f hf
      have hne : f ≠ s := fun h => by
        rw [h] at hf
        exact (List.Nodup.not_mem_erase (nodup_closure it pkgs s)) hf
      rcases (closure_inv it pkgs s).inScope f (Or.inl (List.mem_of_mem_erase hf)) with h | h
      · exact absurd h hne
      · exact getFile_isSome_iff.1 h
    have hlen := length_le_inScopeCount pkgs _ ((nodup_closure it pkgs s).erase s) hsub
    have hs : s ∈ findDependentFilesRecursively it s pkgs :=
      (mem_closure_iff_reaches it pkgs s s).2 Relation.ReflTransGen.refl
    rw [List.length_erase_of_mem hs] at hlen
    omega

/-! ### The clique scope -/

theorem identsList_map_Ident (f : Nat → Nat) (l : List Nat) :
    Node.identsList (l.map (fun j => Node.Ident (f j))) = l.map f := by
  induction l with
  | nil => simp [Node.identsList]
  | cons a l ih => simp [Node.identsList, Node.idents, ih]

theorem cliqueTree_idents (n i : Nat) :
    (cliqueTree n i).idents
      = (i * (n + 1)) :: (List.range n).map (fun j => i * (n + 1) + (j + 1)) := by
  simp [cliqueTree, AstFile.idents, Node.identsList, Node.idents, identsList_map_Ident]

theorem mem_inScopeFiles_clique (n : Nat) (g : GoString) :
    g ∈ inScopeFiles [cliquePkg n] ↔ ∃ j < n, g = cliqueName (j + 1) := by
  simp only [mem_inScopeFiles, List.mem_singleton, exists_eq_left, cliquePkg, List.mem_map,
    List.mem_range]
  constructor
  · rintro ⟨t, ⟨j, hj, rfl⟩, ho⟩
    exact ⟨j, hj, ho.symm⟩
  · rintro ⟨j, hj, rfl⟩
    exact ⟨cliqueTree n (j + 1), ⟨j, hj, rfl⟩, rfl⟩

theorem cliqueName_injective : Function.Injective cliqueName := by
  intro i j h
  have := congrArg List.length h
  simpa [cliqueName] using this

theorem inScopeCount_clique (n : Nat) : inScopeCount [cliquePkg n] = n := by
  have hfiles : inScopeFiles [cliquePkg n] = (List.range n).map (fun i => cliqueName (i + 1)) := by
    simp [inScopeFiles, cliquePkg, Package.origin, cliqueTree, cliqueFset]
  have hnodup : (inScopeFiles [cliquePkg n]).Nodup := by
    rw [hfiles]
    apply List.Nodup.map _ (List.nodup_range n)
    intro i j h
    have := cliqueName_injective h
    omega
  unfold inScopeCount
  rw [hnodup.dedup, hfiles]
  simp

theorem completeScope_clique (it : MapIter) (n : Nat) : CompleteScope it [cliquePkg n] := by
  intro f t ht g hg
  obtain ⟨pkg, hpkg, htmem, _⟩ := getFile_some ht
  rw [List.mem_singleton.1 hpkg] at htmem
  simp only [cliquePkg, List.mem_map, List.mem_range] at htmem
  obtain ⟨i, _, rfl⟩ := htmem
  obtain ⟨j, hj, rfl⟩ := (mem_inScopeFiles_clique n g).1 hg
  refine mem_findDependentFiles.2 ⟨mem_recordedFiles.2 ?_, getFile_isSome_iff.2 hg⟩
  refine ⟨(i + 1) * (n + 1) + (j + 1), ?_, cliquePkg n, List.mem_singleton_self _, ?_⟩
  · rw [cliqueTree_idents]
    exact List.mem_cons_of_mem _ (List.mem_map.2 ⟨j, List.mem_range.2 hj, rfl⟩)
  · have hmod : ((i + 1) * (n + 1) + (j + 1)) % (n + 1) = j + 1 := by
      rw [Nat.mul_add_mod_of_lt (by omega)]
    refine ⟨⟨j + 1⟩, ?_, rfl⟩
    simp [cliquePkg, hmod]

/-- Claim C20, as stated, fails: no constant `c` bounds the number of iterations of the
queue loop by `c * (n + 1)`, `n` the number of in-scope files; on the clique scope of four
files the loop already runs seven times, and on that of `n` files `1 + n * (n - 1) / 2`
times. -/
theorem linear_iteration_bound_counterexample :
    loopRun MapIter.stored [cliquePkg 4] (iterationBound [cliquePkg 4])
      ⟨[], [cliqueName 1]⟩
        = some ([cliqueName 2, cliqueName 3, cliqueName 4, cliqueName 1], 7) ∧
    ¬ ∃ c : Nat, ∀ (it : MapIter) (s : GoString) (pkgs : List Package) (m : List GoString)
      (k : Nat), loopRun it pkgs (iterationBound pkgs) ⟨[], [s]⟩ = some (m, k) →
        k ≤ c * (inScopeCount pkgs + 1) := by
  constructor
  · decide
  · rintro ⟨c, hc⟩
    obtain ⟨k, hk, _⟩ := loopRun_iterationBound MapIter.stored [cliquePkg (2 * c + 4)]
      (cliqueName 1)
    have hbound := hc MapIter.stored (cliqueName 1) [cliquePkg (2 * c + 4)] _ k hk
    have hcount := complete_iterations_seed MapIter.stored [cliquePkg (2 * c + 4)]
      (completeScope_clique _ _) (cliqueName 1)
      ((mem_inScopeFiles_clique _ _).2 ⟨0, by omega, rfl⟩) _ _ k hk
    rw [inScopeCount_clique] at hbound hcount
    have htri := two_mul_triangle (2 * c + 4)
    nlinarith

/-! ## Further properties at the example scopes -/

/-- Claim C11 at the cycle scenario: package `{a.go, b.go}`, `a.go` using a symbol of
`b.go` and `b.go` one of `a.go`; from the first-listed file `a.go` and from the
second-listed file `b.go` alike, the closure holds the two files and the sorted output is
`a.go`, `b.go`. -/
theorem closure_cycle_witness :
    exPkgCycle.Syntax = [exTreeX, exTreeY] ∧
    exPkgCycle.origin exTreeX = utf8 "a.go" ∧ exPkgCycle.origin exTreeY = utf8 "b.go" ∧
    Resolves exPkgCycle 401 (utf8 "b.go") ∧ Resolves exPkgCycle 411 (utf8 "a.go") ∧
    ((∀ g, g ∈ findDependentFilesRecursively MapIter.stored (utf8 "a.go") [exPkgCycle] ↔
        g = utf8 "a.go" ∨ g = utf8 "b.go") ∧
      sortMapKeys MapIter.stored
          (findDependentFilesRecursively MapIter.stored (utf8 "a.go") [exPkgCycle])
        = [utf8 "a.go", utf8 "b.go"]) ∧
    ((∀ g, g ∈ findDependentFilesRecursively MapIter.stored (utf8 "b.go") [exPkgCycle] ↔
        g = utf8 "b.go" ∨ g = utf8 "a.go") ∧
      sortMapKeys MapIter.stored
          (findDependentFilesRecursively MapIter.stored (utf8 "b.go") [exPkgCycle])
        = [utf8 "a.go", utf8 "b.go"]) :=
  ⟨rfl, by decide, by decide, ⟨⟨11⟩, rfl, by decide⟩, ⟨⟨2⟩, rfl, by decide⟩,
    (closure_cycle MapIter.stored exPkgCycle exTreeX exTreeY (Or.inl rfl) (by decide)
      ⟨401, by decide, ⟨11⟩, rfl, by decide⟩ ⟨411, by decide, ⟨2⟩, rfl, by decide⟩).2,
    (closure_cycle MapIter.stored exPkgCycle exTreeY exTreeX (Or.inr rfl) (by decide)
      ⟨411, by decide, ⟨2⟩, rfl, by decide⟩ ⟨401, by decide, ⟨11⟩, rfl, by decide⟩).2⟩

theorem exTreeA_out_of_scope :
    ∀ n ∈ exTreeA.idents, ∀ pkg ∈ [exPkgP], ∀ g, Resolves pkg n g →
      getFile g [exPkgP] = none ∨ g = utf8 "a.go" := by
  have hids : exTreeA.idents = [100, 101, 102] := by decide
  rw [hids]
  rintro n hn pkg hpkg g ⟨obj, hobj, hg⟩
  rw [List.mem_singleton.1 hpkg] at hobj hg
  simp only [List.mem_cons, List.mem_singleton, List.not_mem_nil, or_false] at hn
  rcases hn with rfl | rfl | rfl
  · simp [exPkgP] at hobj
  · cases hobj
    subst hg
    exact Or.inl rfl
  · cases hobj
    subst hg
    exact Or.inl rfl

/-- Claim C12 at examples: the seed `c.go` has no tree in scope `[P]`, and every
identifier of the tree of the seed `a.go` resolves to nothing or to a file without a tree
in `[P]`; each closure is the seed alone. -/
theorem closure_disconnected_witness :
    getFile (utf8 "c.go") [exPkgP] = none ∧
    findDependentFilesRecursively MapIter.stored (utf8 "c.go") [exPkgP] = [utf8 "c.go"] ∧
    getFile (utf8 "a.go") [exPkgP] = some exTreeA ∧
    findDependentFilesRecursively MapIter.stored (utf8 "a.go") [exPkgP] = [utf8 "a.go"] :=
  ⟨rfl, closure_disconnected MapIter.stored (utf8 "c.go") [exPkgP] (Or.inl rfl), rfl,
    closure_disconnected MapIter.stored (utf8 "a.go") [exPkgP]
      (Or.inr ⟨exTreeA, rfl, Or.inr exTreeA_out_of_scope⟩)⟩

/-- Claim C14, amended, at examples: `notes.txt` is rejected with the message of the
code, and `a.go` passes the suffix check. -/
theorem validateFile_suffix_witness :
    (validateFile exEnv (utf8 "notes.txt") = some "file must be a .go file" ∧
      Depf exEnv MapIter.stored (utf8 "notes.txt") []
        = (none, some "file must be a .go file")) ∧
    (3 ≤ (utf8 "a.go").length ∧
      validateFile exEnv (utf8 "a.go") =
        match exEnv.Stat (utf8 "a.go") with
        | .error err => some ("could not access file: " ++ err)
        | .ok info => if info.IsDir then some "file must not be a directory" else none) :=
  ⟨(validateFile_suffix exEnv MapIter.stored (utf8 "notes.txt") []).1 (Or.inr (by decide)),
    (validateFile_suffix exEnv MapIter.stored (utf8 "a.go") []).2 (utf8 "a") (by decide)⟩

/-- Claim C15 at an example: with a loader that fails, `Depf` returns an error and a
`nil` list. -/
theorem Depf_error_iff_witness :
    loadPackages exEnvNoLoad (utf8 "a.go") [] = .error "no packages" ∧
    (Depf exEnvNoLoad MapIter.stored (utf8 "a.go") []).2 ≠ none ∧
    (Depf exEnvNoLoad MapIter.stored (utf8 "a.go") []).1 = none :=
  ⟨rfl,
    (Depf_error_iff exEnvNoLoad MapIter.stored (utf8 "a.go") []).1.2
      (Or.inr (Or.inr ⟨utf8 "a.go", "no packages", rfl, rfl⟩)),
    (Depf_error_iff exEnvNoLoad MapIter.stored (utf8 "a.go") []).2.1
      ((Depf_error_iff exEnvNoLoad MapIter.stored (utf8 "a.go") []).1.2
        (Or.inr (Or.inr ⟨utf8 "a.go", "no packages", rfl, rfl⟩)))⟩

/-- Claim C16 at examples: without patterns the loader is handed the directory of the
seed, with the pattern `./...` it is handed that pattern. -/
theorem loadPackages_default_scope_witness :
    loadPackages exEnv (utf8 "/p/a.go") []
      = exEnv.Load ⟨[LoadMode.NeedName, LoadMode.NeedSyntax, LoadMode.NeedDeps,
          LoadMode.NeedTypes, LoadMode.NeedTypesInfo], exEnv.Dir (utf8 "/p/a.go")⟩
        [exEnv.Dir (utf8 "/p/a.go")] ∧
    loadPackages exEnv (utf8 "/p/a.go") [utf8 "./..."]
      = exEnv.Load ⟨[LoadMode.NeedName, LoadMode.NeedSyntax, LoadMode.NeedDeps,
          LoadMode.NeedTypes, LoadMode.NeedTypesInfo], exEnv.Dir (utf8 "/p/a.go")⟩
        [utf8 "./..."] :=
  ⟨(loadPackages_default_scope exEnv (utf8 "/p/a.go") []).1 rfl,
    (loadPackages_default_scope exEnv (utf8 "/p/a.go") [utf8 "./..."]).2.1 (by simp)⟩

/-- Claim C18 at an example: `a.go` is the origin of the tree `exTreeX` of the cycle
package and of the tree `exTreeA` of `P`; in scope `[cycle package, P]` the tree of the
earlier package is returned. -/
theorem getFile_first_wins_witness :
    getFileIn (utf8 "a.go") exPkgCycle exPkgCycle.Syntax = some exTreeX ∧
    getFileIn (utf8 "a.go") exPkgP exPkgP.Syntax = some exTreeA ∧
    getFile (utf8 "a.go") [exPkgCycle, exPkgP] = some exTreeX :=
  ⟨rfl, rfl,
    (getFile_first_wins (utf8 "a.go") [exPkgCycle, exPkgP]).2.2 [] [exPkgP] exPkgCycle exTreeX
      rfl (fun q hq => absurd hq (List.not_mem_nil q)) rfl⟩

/-- Claim C19 at an example: identifier 301 of the tree of `q.go` resolves to a symbol of
`q.go` itself, which has a tree in scope `[Q]`; the tree's own file is in the list. -/
theorem findDependentFiles_in_scope_witness :
    Resolves exPkgQ 301 (utf8 "q.go") ∧
    utf8 "q.go" ∈ findDependentFiles MapIter.stored ⟨30, 300, [.Other [.Ident 301]]⟩ [exPkgQ] :=
  ⟨⟨⟨31⟩, rfl, by decide⟩,
    (findDependentFiles_in_scope MapIter.stored ⟨30, 300, [.Other [.Ident 301]]⟩ [exPkgQ]).2.2
      301 (by decide) exPkgQ (List.mem_singleton_self _) (utf8 "q.go")
      ⟨⟨31⟩, rfl, by decide⟩ (Option.isSome_iff_ne_none.1 (by decide))⟩

/-- Claim C20, amended, at an example: on the clique scope of four files, `n * n + 1` is
17 and the map of the closure has four keys. -/
theorem quadratic_iteration_bound_witness :
    inScopeCount [cliquePkg 4] = 4 ∧
    (∃ k, loopRun MapIter.stored [cliquePkg 4] (iterationBound [cliquePkg 4])
        ⟨[], [cliqueName 1]⟩
        = some (findDependentFilesRecursively MapIter.stored (cliqueName 1) [cliquePkg 4], k) ∧
      k ≤ inScopeCount [cliquePkg 4] * inScopeCount [cliquePkg 4] + 1) ∧
    (findDependentFilesRecursively MapIter.stored (cliqueName 1) [cliquePkg 4]).length
      ≤ inScopeCount [cliquePkg 4] + 1 :=
  ⟨by decide, (quadratic_iteration_bound MapIter.stored (cliqueName 1) [cliquePkg 4]).1,
    (quadratic_iteration_bound MapIter.stored (cliqueName 1) [cliquePkg 4]).2.2.2⟩

end DepfGo
